import Mathlib

/-!
Verification development for the Co-DETECT annotation backend
(`annotation_fastapi/utils.py` and `annotation_fastapi/services.py`).

The Python code is shallowly embedded: pure string manipulation is translated
to executable Lean functions on `List Char` / `String`; stateful code
(disk-cached completions, persisted uid maps, pickled clustering models) is
translated to explicit state passing; code that can raise returns `Option`
(`none` models a raised exception); external capabilities (the LLM completion
provider, the embedding service, sklearn's fitted predictors, Python's
unordered-`set` iteration and the `uuid4` generator) are oracle parameters.
-/

/-! ## Python string primitives (modelled from the CPython `str` methods the
source uses: `replace`, `split`, `splitlines`, `strip`, `lower`, `upper`,
substring membership).  All operate on `List Char` and are wrapped at
`String` level. -/

/-- Python `sub in s` (substring containment) on character lists. -/
def containsChars (sub : List Char) : List Char → Bool
  | [] => sub.isEmpty
  | l@(_ :: rest) => sub.isPrefixOf l || containsChars sub rest

/-- Python `s.replace(pat, rep)`: replace every non-overlapping occurrence,
scanning left to right.  Only called with non-empty `pat` in the source
(`"```json"`, `"```"`); for empty `pat` this version is the identity.
Structural recursion on a fuel bound (one unit per consumed character) so
that concrete instances reduce in the kernel. -/
def replCharsF (pat rep : List Char) : Nat → List Char → List Char
  | 0, l => l
  | _ + 1, [] => []
  | fuel + 1, c :: rest =>
    if pat ≠ [] ∧ pat.isPrefixOf (c :: rest) then
      rep ++ replCharsF pat rep fuel ((c :: rest).drop pat.length)
    else
      c :: replCharsF pat rep fuel rest

def replChars (pat rep l : List Char) : List Char := replCharsF pat rep l.length l

/-- Python `s.split(sep)` for non-empty `sep`: split on every occurrence,
keeping empty pieces (fuelled structural recursion). -/
def splitCharsF (sep : List Char) : Nat → List Char → List Char → List (List Char)
  | 0, _, acc => [acc.reverse]
  | _ + 1, [], acc => [acc.reverse]
  | fuel + 1, c :: rest, acc =>
    if sep ≠ [] ∧ sep.isPrefixOf (c :: rest) then
      acc.reverse :: splitCharsF sep fuel ((c :: rest).drop sep.length) []
    else
      splitCharsF sep fuel rest (c :: acc)

def splitChars (sep l : List Char) : List (List Char) := splitCharsF sep l.length l []

/-- Characters Python's default `str.strip()` removes (ASCII whitespace). -/
def pyWhitespace : List Char := [' ', '\t', '\n', '\r', '\x0b', '\x0c']

def dropWhileIn (cs : List Char) (l : List Char) : List Char :=
  l.dropWhile (fun c => cs.contains c)

/-- Python `s.strip(chars)`. -/
def stripChars (cs l : List Char) : List Char :=
  ((dropWhileIn cs l).reverse |> dropWhileIn cs).reverse

/-- Python `s.rstrip(chars)`. -/
def rstripChars (cs l : List Char) : List Char :=
  (dropWhileIn cs l.reverse).reverse

/-- String-level wrappers. -/
def pyContains (sub s : String) : Bool := containsChars sub.data s.data

def pyReplace (s pat rep : String) : String := ⟨replChars pat.data rep.data s.data⟩

def pySplit (s sep : String) : List String := (splitChars sep.data s.data).map String.mk

/-- Python `s.split(sep, 1)` (at most one split). -/
def pySplit1 (s sep : String) : List String :=
  match pySplit s sep with
  | [] => [s]
  | [x] => [x]
  | x :: rest => [x, String.intercalate sep rest]

/-- Python `s.splitlines()` restricted to `'\n'` separators (the only line
terminator occurring in the strings the source handles). -/
def pySplitLines (s : String) : List String :=
  if s.data = [] then []
  else
    let parts := pySplit s "\n"
    if s.data.getLast? = some '\n' then parts.dropLast else parts

def pyStrip (s : String) : String := ⟨stripChars pyWhitespace s.data⟩

def pyStripOf (cs : List Char) (s : String) : String := ⟨stripChars cs s.data⟩

def pyRStripOf (cs : List Char) (s : String) : String := ⟨rstripChars cs s.data⟩

def pyLower (s : String) : String := ⟨s.data.map Char.toLower⟩

def pyUpper (s : String) : String := ⟨s.data.map Char.toUpper⟩

/-- Python `lst[-1]` on a list known non-empty in source (`split` results). -/
def pyLast (l : List String) : String := (l.getLast?).getD ""

def pyHead (l : List String) : String := (l.head?).getD ""

/-- Digits of a decimal literal to a natural number. -/
def digitsToNat (l : List Char) : Nat :=
  l.foldl (fun a c => a * 10 + (c.toNat - '0'.toNat)) 0

/-- The regex `\d+\.?\d*`: first match in a string, as Python's
`float(match.group())` value (`re.search` + `float`, utils.py lines 473-475).
Returns `none` when the line has no digit. -/
def findNumChars : List Char → Option ℚ
  | [] => none
  | c :: cs =>
    if c.isDigit then
      let digs := (c :: cs).takeWhile Char.isDigit
      let rest := (c :: cs).dropWhile Char.isDigit
      let frac : List Char :=
        match rest with
        | '.' :: r2 => r2.takeWhile Char.isDigit
        | _ => []
      some (mkRat (digitsToNat digs * 10 ^ frac.length + digitsToNat frac : Int)
        (10 ^ frac.length))
    else
      findNumChars cs

def pyFindNumber (s : String) : Option ℚ := findNumChars s.data

/-! ## Association-list dictionaries (Python `dict` with insertion order and
last-write-wins assignment). -/

def alistLookup {κ β : Type} [DecidableEq κ] (l : List (κ × β)) (k : κ) : Option β :=
  (l.find? (fun p => p.1 == k)).map (·.2)

def alistInsert {κ β : Type} [DecidableEq κ] (l : List (κ × β)) (k : κ) (v : β) :
    List (κ × β) :=
  if l.any (fun p => p.1 == k) then
    l.map (fun p => if p.1 = k then (k, v) else p)
  else
    l ++ [(k, v)]

/-! ## JSON values and a model of Python `json.loads`.

`JVal` distinguishes ints from floats the way `json.loads` does (a number
with a fraction or exponent part becomes a Python `float`).  The parser is
fuel-bounded structural recursion; `json_loads` supplies ample fuel.  `\uXXXX`
string escapes are outside the modelled subset (none of the exchanged
payloads use them); such inputs simply fail to parse. -/

inductive JVal where
  | jnull
  | jbool (b : Bool)
  | jint (n : Int)
  | jfloat (q : ℚ)
  | jstr (s : String)
  | jarr (elems : List JVal)
  | jobj (fields : List (String × JVal))

def jskipWs : List Char → List Char
  | [] => []
  | c :: cs => if c = ' ' || c = '\n' || c = '\t' || c = '\r' then jskipWs cs else c :: cs

/-- JSON string body after the opening quote: returns content and rest. -/
def jparseStrBody : List Char → Option (List Char × List Char)
  | [] => none
  | '"' :: cs => some ([], cs)
  | '\\' :: e :: cs =>
    let c? : Option Char :=
      match e with
      | '"' => some '"'
      | '\\' => some '\\'
      | '/' => some '/'
      | 'n' => some '\n'
      | 't' => some '\t'
      | 'r' => some '\r'
      | 'b' => some (Char.ofNat 8)
      | 'f' => some (Char.ofNat 12)
      | _ => none
    match c? with
    | none => none
    | some c =>
      match jparseStrBody cs with
      | some (body, rest) => some (c :: body, rest)
      | none => none
  | c :: cs =>
    match jparseStrBody cs with
    | some (body, rest) => some (c :: body, rest)
    | none => none

/-- JSON number: optional sign, integer digits, optional fraction, optional
exponent.  Yields `jint` when there is neither fraction nor exponent. -/
def jparseNum (l : List Char) : Option (JVal × List Char) :=
  let (neg, l1) : Bool × List Char :=
    match l with
    | '-' :: r => (true, r)
    | _ => (false, l)
  let digs := l1.takeWhile Char.isDigit
  let l2 := l1.dropWhile Char.isDigit
  if digs.isEmpty then none
  else
    let ip : Int := (digitsToNat digs : Int)
    let (hasFrac, frac, l3) : Bool × List Char × List Char :=
      match l2 with
      | '.' :: r =>
        let f := r.takeWhile Char.isDigit
        (true, f, r.dropWhile Char.isDigit)
      | _ => (false, [], l2)
    if hasFrac ∧ frac.isEmpty then none
    else
      let (hasExp, expNeg, expDigs, l4) : Bool × Bool × List Char × List Char :=
        match l3 with
        | 'e' :: '-' :: r => (true, true, r.takeWhile Char.isDigit, r.dropWhile Char.isDigit)
        | 'e' :: '+' :: r => (true, false, r.takeWhile Char.isDigit, r.dropWhile Char.isDigit)
        | 'e' :: r => (true, false, r.takeWhile Char.isDigit, r.dropWhile Char.isDigit)
        | 'E' :: '-' :: r => (true, true, r.takeWhile Char.isDigit, r.dropWhile Char.isDigit)
        | 'E' :: '+' :: r => (true, false, r.takeWhile Char.isDigit, r.dropWhile Char.isDigit)
        | 'E' :: r => (true, false, r.takeWhile Char.isDigit, r.dropWhile Char.isDigit)
        | _ => (false, false, [], l3)
      if hasExp ∧ expDigs.isEmpty then none
      else
        if hasFrac ∨ hasExp then
          let mant : Int := digitsToNat digs * 10 ^ frac.length + digitsToNat frac
          let mant' : Int := if neg then -mant else mant
          let e : Nat := digitsToNat expDigs
          let q : ℚ :=
            if expNeg then mkRat mant' (10 ^ frac.length * 10 ^ e)
            else mkRat (mant' * 10 ^ e) (10 ^ frac.length)
          some (JVal.jfloat q, l4)
        else
          some (JVal.jint (if neg then -ip else ip), l2)

mutual

def jparseVal : Nat → List Char → Option (JVal × List Char)
  | 0, _ => none
  | fuel + 1, cs =>
    match jskipWs cs with
    | [] => none
    | l =>
      if ['t', 'r', 'u', 'e'].isPrefixOf l then some (JVal.jbool true, l.drop 4)
      else if ['f', 'a', 'l', 's', 'e'].isPrefixOf l then some (JVal.jbool false, l.drop 5)
      else if ['n', 'u', 'l', 'l'].isPrefixOf l then some (JVal.jnull, l.drop 4)
      else
        match l with
        | '"' :: rest =>
          match jparseStrBody rest with
          | some (body, r) => some (JVal.jstr ⟨body⟩, r)
          | none => none
        | '[' :: rest =>
          match jskipWs rest with
          | ']' :: r => some (JVal.jarr [], r)
          | r => (jparseArrElems fuel r).map (fun p => (JVal.jarr p.1, p.2))
        | '{' :: rest =>
          match jskipWs rest with
          | '}' :: r => some (JVal.jobj [], r)
          | r =>
            (jparseObjFields fuel r).map
              (fun p => (JVal.jobj (p.1.foldl (fun d q => alistInsert d q.1 q.2) []), p.2))
        | _ => jparseNum l

def jparseArrElems : Nat → List Char → Option (List JVal × List Char)
  | 0, _ => none
  | fuel + 1, cs =>
    match jparseVal fuel cs with
    | none => none
    | some (v, rest) =>
      match jskipWs rest with
      | ',' :: r =>
        match jparseArrElems fuel r with
        | some (vs, r2) => some (v :: vs, r2)
        | none => none
      | ']' :: r => some ([v], r)
      | _ => none

def jparseObjFields : Nat → List Char → Option (List (String × JVal) × List Char)
  | 0, _ => none
  | fuel + 1, cs =>
    match jskipWs cs with
    | '"' :: rest =>
      match jparseStrBody rest with
      | none => none
      | some (key, r1) =>
        match jskipWs r1 with
        | ':' :: r2 =>
          match jparseVal fuel r2 with
          | none => none
          | some (v, r3) =>
            match jskipWs r3 with
            | ',' :: r4 =>
              match jparseObjFields fuel r4 with
              | some (fs, r5) => some ((⟨key⟩, v) :: fs, r5)
              | none => none
            | '}' :: r4 => some ([(⟨key⟩, v)], r4)
            | _ => none
        | _ => none
    | _ => none

end

/-- Model of Python `json.loads` on the JSON subset the program exchanges:
parse one value and require only trailing whitespace. -/
def json_loads (s : String) : Option JVal :=
  match jparseVal (2 * s.data.length + 4) s.data with
  | some (v, rest) => if jskipWs rest = [] then some v else none
  | none => none

/-- `Option`-valued map used to model fallible loops (`asyncio.gather`,
per-response parsing): `none` as soon as one element fails. -/
def mapO {α β : Type} (f : α → Option β) : List α → Option (List β)
  | [] => some []
  | a :: as =>
    match f a, mapO f as with
    | some b, some bs => some (b :: bs)
    | _, _ => none

/-! ## `parse_json_output` (utils.py lines 444-485).

Returns `none` exactly where the Python function raises: in the fallback, the
local `new_edge_case` has no default before the line loop, so building the
result dict raises `UnboundLocalError` whenever no scanned line sets it. -/

/-- The character set of `.strip(' \n"\',')` used on recovered field values. -/
def stripValChars : List Char := [' ', '\n', '"', '\'', ',']

/-- Fallback recovery path of `parse_json_output` (the `except` block). -/
def pjoFallback (resp : String) : Option (List (String × JVal)) :=
  let analysis :=
    pyStripOf stripValChars (pyHead (pySplit (pyLast (pySplit1 resp ": \"")) "\"annotation\""))
  let res_lines := pySplit resp "\n"
  let st := res_lines.foldl (fun (st : JVal × JVal × ℚ × Option Bool) line =>
    let (anno, rule, conf, nec) := st
    if pyContains "annotation" line then
      (JVal.jstr (pyStripOf stripValChars (pyLast (pySplit line ":"))), rule, conf, nec)
    else if pyContains "new_edge_case_rule" line then
      (anno, JVal.jstr (pyStripOf stripValChars (pyLast (pySplit line ":"))), conf, nec)
    else if pyContains "new_edge_case" line then
      (anno, rule, conf, some (pyContains "true" (pyLower line)))
    else if pyContains "confidence" line then
      (anno, rule, (pyFindNumber line).getD conf, nec)
    else st) (JVal.jint (-1), JVal.jnull, 50, none)
  match st.2.2.2 with
  | none => none
  | some b =>
    some [("analysis", JVal.jstr analysis), ("annotation", st.1),
      ("confidence", JVal.jfloat st.2.2.1), ("new_edge_case", JVal.jbool b),
      ("new_edge_case_rule", st.2.1)]

/-- Embedding of `parse_json_output`.  The result is the returned Python dict
(an ordered association list); `none` models a raised exception. -/
def parse_json_output (response : String) : Option (List (String × JVal)) :=
  let r1 := pyStripOf ['\n', ' '] (pyReplace (pyReplace response "```json" "") "```" "")
  let resp := if pyContains "</think>" r1 then (pySplit r1 "</think>").getD 1 "" else r1
  match json_loads resp with
  | some (JVal.jobj fs) =>
    if (alistLookup fs "analysis").isSome ∧ (alistLookup fs "annotation").isSome ∧
        (alistLookup fs "confidence").isSome ∧ (alistLookup fs "new_edge_case").isSome ∧
        (alistLookup fs "new_edge_case_rule").isSome then
      some fs
    else pjoFallback resp
  | _ => pjoFallback resp

/-! ## `parse_aggregation` (utils.py lines 519-564). -/

/-- Split a character list at the first occurrence of `sub`, dropping `sub`
itself; `none` when `sub` does not occur.  Used only with non-empty `sub`. -/
def splitFirst (sub : List Char) : List Char → Option (List Char × List Char)
  | [] => none
  | l@(c :: rest) =>
    if sub.isPrefixOf l then some ([], l.drop sub.length)
    else (splitFirst sub rest).map (fun p => (c :: p.1, p.2))

/-- Model of `re.search(r"```json\s*(.*?)\s*```", response, re.DOTALL)`:
content between the first fence pair, with surrounding whitespace absorbed by
the greedy `\s*` and the lazy group. -/
def extractFence (s : String) : Option String :=
  match splitFirst "```json".data s.data with
  | none => none
  | some (_, after) =>
    match splitFirst "```".data after with
    | none => none
    | some (content, _) => some ⟨stripChars pyWhitespace content⟩

/-- Strict path of `parse_aggregation`: `json.loads` then the `assert`s that
the payload is a dict with a `categories` list whose entries are dicts
carrying both required keys.  Any failure falls back (`none` here). -/
def aggStrict (jsonStr : String) : Option (List (List (String × JVal))) :=
  match json_loads jsonStr with
  | some (JVal.jobj fs) =>
    match alistLookup fs "categories" with
    | some (JVal.jarr cats) =>
      mapO (fun c =>
        match c with
        | JVal.jobj cf =>
          if (alistLookup cf "category_description").isSome ∧
              (alistLookup cf "edge_cases").isSome then some cf else none
        | _ => none) cats
    | _ => none
  | _ => none

def dropOptQuote : List Char → List Char
  | '"' :: r => r
  | l => l

def wsDrop (l : List Char) : List Char := l.dropWhile (fun c => pyWhitespace.contains c)

/-- `re.match(r'"?category_description"?\s*:\s*"([^"]+)"', line)`. -/
def matchDescLine (line : String) : Option String :=
  let l := dropOptQuote line.data
  if ("category_description".data).isPrefixOf l then
    let l1 := dropOptQuote (l.drop "category_description".data.length)
    match wsDrop l1 with
    | ':' :: r =>
      match wsDrop r with
      | '"' :: r2 =>
        let content := r2.takeWhile (fun c => c != '"')
        if content.isEmpty then none
        else
          match r2.drop content.length with
          | '"' :: _ => some ⟨content⟩
          | _ => none
      | _ => none
    | _ => none
  else none

/-- `re.findall(r'\d+', s)`: the maximal digit runs. -/
def digitRunsF : Nat → List Char → List (List Char)
  | 0, _ => []
  | _ + 1, [] => []
  | fuel + 1, c :: cs =>
    if c.isDigit then
      (c :: cs.takeWhile Char.isDigit) ::
        digitRunsF fuel (cs.drop (cs.takeWhile Char.isDigit).length)
    else
      digitRunsF fuel cs

def digitRuns (l : List Char) : List (List Char) := digitRunsF l.length l

/-- `re.match(r'"?edge_cases"?\s*:\s*\[([^\]]*)\]', line)` followed by
`[int(n) for n in re.findall(r'\d+', inner)]`. -/
def matchCasesLine (line : String) : Option (List Int) :=
  let l := dropOptQuote line.data
  if ("edge_cases".data).isPrefixOf l then
    let l1 := dropOptQuote (l.drop "edge_cases".data.length)
    match wsDrop l1 with
    | ':' :: r =>
      match wsDrop r with
      | '[' :: r2 =>
        let content := r2.takeWhile (fun c => c != ']')
        match r2.drop content.length with
        | ']' :: _ => some ((digitRuns content).map (fun d => (digitsToNat d : Int)))
        | _ => none
      | _ => none
    | _ => none
  else none

/-- Embedding of `parse_aggregation`.  Both the strict JSON path and the
line-scanning recovery yield the category dicts the Python returns. -/
def parse_aggregation (response : String) : List (List (String × JVal)) :=
  let json_str := pyStripOf [' ', '\n'] ((extractFence response).getD response)
  match aggStrict json_str with
  | some cats => cats
  | none =>
    let step := fun (st : List (List (String × JVal)) × Option String × Option (List Int))
        (line0 : String) =>
      let (cats, curDesc, curCases) := st
      let line := pyRStripOf [','] (pyStrip line0)
      let st1 :=
        match matchDescLine line with
        | some d =>
          let cats' :=
            match curDesc, curCases with
            | some desc, some ec =>
              cats ++ [[("category_description", JVal.jstr desc),
                ("edge_cases", JVal.jarr (ec.map JVal.jint))]]
            | _, _ => cats
          (cats', some d, (none : Option (List Int)))
        | none => (cats, curDesc, curCases)
      match matchCasesLine line with
      | some ns => (st1.1, st1.2.1, some ns)
      | none => st1
    let fin := (pySplitLines json_str).foldl step ([], none, none)
    match fin.2.1, fin.2.2 with
    | some desc, some ec =>
      fin.1 ++ [[("category_description", JVal.jstr desc),
        ("edge_cases", JVal.jarr (ec.map JVal.jint))]]
    | _, _ => fin.1

/-! ## `parse_merge` (utils.py lines 567-580). -/

/-- `re.match(r'Merge (\[[^\[\]]*\])', line)`: the bracketed group without
nested brackets, anchored at line start; `none` means the line is skipped. -/
def matchMergeLine (line : String) : Option String :=
  let l := line.data
  if ("Merge ".data).isPrefixOf l then
    match l.drop 6 with
    | '[' :: r =>
      let content := r.takeWhile (fun c => c != ']' && c != '[')
      match r.drop content.length with
      | ']' :: _ => some ⟨content⟩
      | _ => none
    | _ => none
  else none

/-- One element of the `ast.literal_eval` list: an optionally signed integer
literal.  Non-integer literals make the modelled evaluation fail. -/
def parseIntLiteral (s : String) : Option Int :=
  let l := stripChars pyWhitespace s.data
  let (neg, l1) : Bool × List Char :=
    match l with
    | '-' :: r => (true, r)
    | '+' :: r => (false, r)
    | _ => (false, l)
  if l1 ≠ [] ∧ l1.all Char.isDigit then
    some (if neg then -(digitsToNat l1 : Int) else (digitsToNat l1 : Int))
  else none

/-- `ast.literal_eval("[" ++ content ++ "]")` for integer-list literals
(one trailing comma tolerated, as in Python). -/
def parseIntList (content : String) : Option (List Int) :=
  if (stripChars pyWhitespace content.data).isEmpty then some []
  else
    let ps := (splitChars [','] content.data).map (fun p => String.mk p)
    let ps' :=
      if (pyStrip (pyLast ps)).data.isEmpty then ps.dropLast else ps
    if ps'.isEmpty then none else mapO parseIntLiteral ps'

/-- Embedding of `parse_merge`: `none` models the `ast.literal_eval`
exception on a malformed bracket group; each entry is
(`merge` index list, `merged_rule` text). -/
def parse_merge (response : String) : Option (List (List Int × String)) :=
  if pyContains "NO MERGE" response then some []
  else
    (pySplit response "\n").foldlM (fun acc line =>
      match matchMergeLine line with
      | none => some acc
      | some inner =>
        match parseIntList inner with
        | none => none
        | some ns => some (acc ++ [(ns, pyStrip (pyLast (pySplit line ": ")))])) []

/-! ## `create_answers_async` (utils.py lines 386-441) with the static cost
tables (lines 50-85, 363-370).

The message type `μ` and completion type `ρ` are abstract (Python uses lists
of role/content dicts and strings).  `achatO` is the oracle for one `achat`
call: `none` models an exception raised while awaiting the provider, in which
case the whole batch's `asyncio.gather` raises and the batch index is
recorded.  The `diskcache.Cache` is an explicit key-value state threaded
through the run; keys are `(model, message)` pairs exactly as in the source. -/

/-- `INPUT_COST_DICT` ($ per 1M input tokens).  An unknown model name raises
`KeyError` in Python; here it is totalized with 0 (no claim touches it). -/
def INPUT_COST_DICT : String → ℚ
  | "o1" => 15
  | "o3-mini" => 11 / 10
  | "gpt-4o-mini" => 15 / 100
  | "gpt-4o" => 5 / 2
  | "gpt-4.1" => 2
  | "deepseek-chat" => 27 / 100
  | "deepseek-reasoner" => 55 / 100
  | "qwq-32b" => 6 / 5
  | "sonnet-3.7-high" => 3
  | "gemini-2.5-pro" => 5 / 4
  | "llama_405" => 7 / 2
  | "llama_70" => 88 / 100
  | "llama4_maverick" => 27 / 100
  | "gemma3" => 3 / 10
  | _ => 0

/-- `OUTPUT_COST_DICT` ($ per 1M output tokens). -/
def OUTPUT_COST_DICT : String → ℚ
  | "o1" => 60
  | "o3-mini" => 44 / 10
  | "gpt-4o-mini" => 6 / 10
  | "gpt-4o" => 10
  | "gpt-4.1" => 8
  | "deepseek-chat" => 110 / 100
  | "deepseek-reasoner" => 219 / 100
  | "qwq-32b" => 6 / 5
  | "sonnet-3.7-high" => 15
  | "gemini-2.5-pro" => 5 / 2
  | "llama_405" => 7 / 2
  | "llama_70" => 88 / 100
  | "llama4_maverick" => 85 / 100
  | "gemma3" => 3 / 10
  | _ => 0

def get_input_price (model : String) (inputLen : Nat) : ℚ :=
  (inputLen : ℚ) / 1000000 * INPUT_COST_DICT model

def get_output_price (model : String) (outputLen : Nat) : ℚ :=
  (outputLen : ℚ) / 1000000 * OUTPUT_COST_DICT model

/-- The result of one successful `achat` call: completion content, optional
reasoning content, and the prompt/completion token counts. -/
structure AchatRes (ρ : Type) where
  content : ρ
  reasoning : Option String
  inTok : Nat
  outTok : Nat

/-- One cache value: the dict `{'response': res, 'response_reasoning': r}`. -/
structure CacheEntry (ρ : Type) where
  response : ρ
  response_reasoning : Option String

abbrev LlmCache (μ ρ : Type) := List ((String × μ) × CacheEntry ρ)

/-- `batchify(lst, batch_size)` (utils.py lines 386-388).  Python's
`range(0, n, 0)` raises `ValueError`, so `batch_size = 0` is unreachable in
the source; it is totalized with `[]` here and excluded by hypothesis. -/
def batchifyF {α : Type} : Nat → List α → Nat → List (List α)
  | 0, _, _ => []
  | _ + 1, [], _ => []
  | fuel + 1, a :: rest, bs =>
    if bs = 0 then []
    else (a :: rest).take bs :: batchifyF fuel ((a :: rest).drop bs) bs

def batchify {α : Type} (l : List α) (bs : Nat) : List (List α) := batchifyF l.length l bs

/-- The cache-hit/cache-miss partition loop (utils.py lines 405-414):
builds `mapping_list` (1-based positive index into the hit list, negative
1-based index into the miss list), `cache_miss_msgs`, and
`cache_hit_responses`. -/
def partitionBatch {μ ρ : Type} [DecidableEq μ] (model : String) (cache : LlmCache μ ρ)
    (batch : List μ) : List Int × List μ × List ρ :=
  batch.foldl (fun acc m =>
    let (ml, misses, hits) := acc
    match alistLookup cache (model, m) with
    | some e => (ml ++ [(hits.length : Int) + 1], misses, hits ++ [e.response])
    | none => (ml ++ [-(misses.length : Int) - 1], misses ++ [m], hits)) ([], [], [])

/-- Run state of the batch loop: the open cache plus the accumulators
`all_answers`, `error_batches`, `total_input_tok_num`, `total_output_tok_num`. -/
structure RunSt (μ ρ : Type) where
  cache : LlmCache μ ρ
  allAnswers : List ρ
  errorBatches : List Nat
  totalInTok : Nat
  totalOutTok : Nat

/-- One iteration of the batch loop (utils.py lines 404-437). -/
def processOneBatch {μ ρ : Type} [DecidableEq μ] [Inhabited ρ] (model : String)
    (achatO : μ → Option (AchatRes ρ)) (st : RunSt μ ρ) (i : Nat) (batch : List μ) :
    RunSt μ ρ :=
  let (ml, misses, hits) := partitionBatch model st.cache batch
  if misses.isEmpty then
    { st with allAnswers := st.allAnswers ++ hits }
  else
    match mapO achatO misses with
    | none => { st with errorBatches := st.errorBatches ++ [i] }
    | some results =>
      let answers := results.map (·.content)
      let newCache := (misses.zip results).foldl
        (fun c p => alistInsert c (model, p.1) ⟨p.2.content, p.2.reasoning⟩) st.cache
      let merged := ml.map (fun idx =>
        if 0 < idx then hits.getD (idx - 1).toNat default
        else answers.getD (-idx - 1).toNat default)
      { cache := newCache,
        allAnswers := st.allAnswers ++ merged,
        errorBatches := st.errorBatches,
        totalInTok := st.totalInTok + (results.map (·.inTok)).sum,
        totalOutTok := st.totalOutTok + (results.map (·.outTok)).sum }

/-- The enumerated batch loop, exposed so theorems can speak about the final
cache state. -/
def runBatches {μ ρ : Type} [DecidableEq μ] [Inhabited ρ] (model : String)
    (achatO : μ → Option (AchatRes ρ)) (messages : List μ) (cache₀ : LlmCache μ ρ)
    (batchSize : Nat) : RunSt μ ρ :=
  ((batchify messages batchSize).enum).foldl
    (fun st p => processOneBatch model achatO st p.1 p.2) ⟨cache₀, [], [], 0, 0⟩

/-- Embedding of `create_answers_async`: returns
`(all_answers, error_batches, input_price + output_price)`. -/
def create_answers_async {μ ρ : Type} [DecidableEq μ] [Inhabited ρ] (model : String)
    (achatO : μ → Option (AchatRes ρ)) (messages : List μ) (cache₀ : LlmCache μ ρ)
    (batchSize : Nat) : List ρ × List Nat × ℚ :=
  let fin := runBatches model achatO messages cache₀ batchSize
  (fin.allAnswers, fin.errorBatches,
    get_input_price model fin.totalInTok + get_output_price model fin.totalOutTok)

/-- The completion that "corresponds to" a prompt on a given starting cache:
the cached response if the prompt is a hit, otherwise the provider's answer. -/
def answerOf {μ ρ : Type} [DecidableEq μ] (model : String) (cache₀ : LlmCache μ ρ)
    (achatO : μ → Option (AchatRes ρ)) (m : μ) : Option ρ :=
  match alistLookup cache₀ (model, m) with
  | some e => some e.response
  | none => (achatO m).map (·.content)

/-! ## Identity mapper (services.py lines 322-352 and 423-438).

State is the persisted `uid2example_{task}.json` / `example2uid_{task}.json`
pair for one task; `fresh` is the `uuid.uuid4()` stream, consumed from
index 0. -/

structure MapSt where
  uid2example : List (String × String)
  example2uid : List (String × String)
deriving DecidableEq, Repr

/-- One iteration of the `for example in examples` loop (lines 332-337):
unknown texts get the next uid from the `uuid4` stream and are inserted into
both tables. -/
def resolveStep (fresh : Nat → String) (p : MapSt × Nat) (ex : String) : MapSt × Nat :=
  match alistLookup p.1.example2uid ex with
  | some _ => p
  | none =>
    let uid := fresh p.2
    (⟨alistInsert p.1.uid2example uid ex, alistInsert p.1.example2uid ex uid⟩, p.2 + 1)

/-- The uid-resolution block of `process_annotation_json` (lines 325-352).
`st = none` models "the two mapping files do not both exist".  Returns the
`uids` list (one per element of `examples`, in order) and the persisted
state.  The `updated` flag in the source only skips the file write when
nothing changed; the returned state is the same either way. -/
def resolve_uids (st : Option MapSt) (examples : List String) (fresh : Nat → String) :
    List String × MapSt :=
  match st with
  | some s =>
    let upd := examples.foldl (resolveStep fresh) (s, 0)
    (examples.map (fun ex => (alistLookup upd.1.example2uid ex).getD ""), upd.1)
  | none =>
    let uids := (List.range examples.length).map fresh
    let u2e := (uids.zip examples).foldl (fun d p => alistInsert d p.1 p.2) []
    let e2u := (uids.zip examples).foldl (fun d p => alistInsert d p.2 p.1) []
    (uids, ⟨u2e, e2u⟩)

/-- The uid block of `process_annotation_one_json` (lines 423-438); there the
mapping files are opened unguarded, so the state must exist. -/
def resolve_one (s : MapSt) (ex : String) (freshUid : String) : String × MapSt :=
  match alistLookup s.example2uid ex with
  | some u => (u, s)
  | none =>
    (freshUid,
      ⟨alistInsert s.uid2example freshUid ex,
        alistInsert s.example2uid ex freshUid⟩)

/-! ## Clustering model state and sklearn oracles. -/

/-- Events recording which models a call fit, loaded or wrote to disk. -/
inductive FitEvent where
  | fitTopicalKMeans (nClusters : Nat)
  | fitTopicalPCA
  | savedTopical
  | loadedSemantic
  | fitSemanticKMeans (nClusters : Nat) (sizeMin sizeMax : Option Nat)
  | fitSemanticPCA
  | savedSemantic
deriving DecidableEq, Repr

/-- Presence of the two pickled model files for one task and one purpose. -/
structure ModelStore where
  pcaSaved : Bool
  kmeansSaved : Bool
deriving DecidableEq, Repr

/-- Oracle for the sklearn predictors.  Fitting and predicting are opaque
numeric computations on the (opaque) embeddings; both are indexed by row
position within the batch. -/
structure ClusterOracle where
  fitLabel : Nat → Nat
  fitCoord : Nat → ℚ × ℚ
  predLabel : Nat → Nat
  predCoord : Nat → ℚ × ℚ

/-- `cluster_texts_with_pca` (services.py lines 103-142): per-row
`(cluster, pca_x, pca_y)` columns, the new state of
`models/pca_model_{task}.pkl` / `models/kmeans_model_{task}.pkl`, and the
fit/persist events.  When both files exist the loaded pair only predicts;
when either is missing a fresh KMeans and PCA are fit on the batch and both
files are written (regardless of `task_id`). -/
def cluster_texts_with_pca (texts : List String) (store : ModelStore)
    (oracle : ClusterOracle) (n_clusters : Nat) :
    List (Nat × ℚ × ℚ) × ModelStore × List FitEvent :=
  if store.pcaSaved ∧ store.kmeansSaved then
    ((List.range texts.length).map (fun i => (oracle.predLabel i, oracle.predCoord i)),
      store, [])
  else
    ((List.range texts.length).map (fun i => (oracle.fitLabel i, oracle.fitCoord i)),
      ⟨true, true⟩,
      [FitEvent.fitTopicalKMeans n_clusters, FitEvent.fitTopicalPCA, FitEvent.savedTopical])

/-! ## `synthesize_guideline_improvements` (services.py lines 145-313).

The input rows model the `annotation_result` records of a cluster request
(fields the synthesis reads; further pass-through columns are immaterial).
The LLM calls are oracles: `aggResp cid` is the completion for cluster
`cid`'s aggregation prompt (the `call_openai` retry loop runs until no batch
fails, so one response per prompt), `mergeResp` the completion for the merge
prompt. -/

structure InRow where
  uid : String
  text_to_annotate : String
  guideline_improvement : String
deriving DecidableEq, Repr

/-- One output record (the `fields_to_include` projection, lines 300-308);
`edge_case_id = none` models the NaN / absent-column case and
`guideline_improvement = none` a row never assigned a merged rule. -/
structure OutRow where
  uid : String
  text_to_annotate : String
  edge_case_id : Option Nat
  pca_x : Option ℚ
  pca_y : Option ℚ
  guideline_improvement : Option String
deriving DecidableEq, Repr

/-- The filter `df["guideline_improvement"].str.strip().str.upper() != "EMPTY"`. -/
def keepRow (r : InRow) : Bool := pyUpper (pyStrip r.guideline_improvement) != "EMPTY"

/-- `s.strip(' \n') if '->' not in s else s.split('->')[0].strip()`
(line 152; also process_annotation_one_json line 467). -/
def condition_clause (s : String) : String :=
  if pyContains "->" s then pyStrip (pyHead (pySplit s "->")) else pyStripOf [' ', '\n'] s

/-- The size-bound step function for `KMeansConstrained` (lines 205-210). -/
def sc_size_bounds (data_size : Nat) : Option Nat × Option Nat :=
  if data_size ≤ 20 then (none, none)
  else if data_size ≤ 40 then (some 5, some 20)
  else (some 10, some 20)

/-- Python truthiness of the optional `task_id` (`if task_id:`). -/
def pyTruthy : Option String → Bool
  | none => false
  | some s => !(s == "")

/-- Whether the semantic model pair is loaded: `task_id` truthy and both
`models/..._{task}_cluster.pkl` files present (a missing second file raises
`FileNotFoundError`, discarding the partial load). -/
def semLoaded (tid : Option String) (store : ModelStore) : Bool :=
  pyTruthy tid && store.pcaSaved && store.kmeansSaved

/-- Python positional `iloc[j]` with negative indexing; `none` is the
`IndexError`. -/
def pyIloc {α : Type} (l : List α) (j : Int) : Option α :=
  if 0 ≤ j then l.get? j.toNat
  else if (-j).toNat ≤ l.length then l.get? (l.length - (-j).toNat)
  else none

/-- Line 256: `[cluster_df.iloc[i-1]['uid'] for i in ids if i <= len(cluster_df)]`.
`none` models the `IndexError` a surviving out-of-range reference raises. -/
def extract_category_uids (clusterUids : List String) (ids : List Int) :
    Option (List String) :=
  mapO (fun i => pyIloc clusterUids (i - 1))
    (ids.filter (fun i => i ≤ (clusterUids.length : Int)))

/-- The `edge_cases` value of a category: `none` is a raised `TypeError`
(iterating / comparing a non-list, non-integer payload), `some none` is the
`if ids is None: continue` case, `some (some l)` an integer list. -/
def idsOfJVal : JVal → Option (Option (List Int))
  | JVal.jnull => some none
  | JVal.jarr xs =>
    (mapO (fun v => match v with | JVal.jint n => some n | _ => none) xs).map some
  | _ => none

/-- `new_rules[rule].extend(uids)` / `new_rules[rule] = uids` on the
insertion-ordered dict (lines 257-260). -/
def rulesAdd (d : List (String × List String)) (k : String) (v : List String) :
    List (String × List String) :=
  if d.any (fun p => p.1 == k) then
    d.map (fun p => if p.1 = k then (p.1, p.2 ++ v) else p)
  else d ++ [(k, v)]

/-- The per-cluster categorization loop (lines 249-260): parse each cluster's
aggregation response and accumulate `new_rules`.  `clusterOf cid` is the uid
column of the rows assigned to cluster `cid`, in row order.  A non-string
`category_description` is modelled as a raise (in CPython only unhashable
descriptions raise; the prompt contract makes descriptions strings). -/
def build_new_rules (clusterOf : Nat → List String) (K : Nat) (aggResp : Nat → String) :
    Option (List (String × List String)) :=
  (List.range K).foldlM (fun nr cid =>
    (parse_aggregation (aggResp cid)).foldlM (fun nr cat =>
      match alistLookup cat "category_description", alistLookup cat "edge_cases" with
      | some (JVal.jstr rule), some ec =>
        match idsOfJVal ec with
        | none => none
        | some none => some nr
        | some (some ids) =>
          match extract_category_uids (clusterOf cid) ids with
          | none => none
          | some uids => some (rulesAdd nr rule uids)
      | _, _ => none) nr) []

/-- The cross-cluster merge phase (lines 262-283): skipped when only one
cluster was processed; otherwise each category keeps its key or takes the
first merge suggestion containing its 1-based position, and member lists are
concatenated key-wise. -/
def apply_merge (nr : List (String × List String)) (K : Nat) (mergeResp : String) :
    Option (List (String × List String)) :=
  if K = 1 then some nr
  else
    match parse_merge mergeResp with
    | none => none
    | some sugs =>
      some (nr.enum.foldl (fun md p =>
        let key :=
          match sugs.find? (fun s => s.1.contains ((p.1 : Int) + 1)) with
          | some s => s.2
          | none => p.2.1
        rulesAdd md key p.2.2) [])

/-- A filtered row with its working columns during synthesis. -/
structure WorkRow where
  row : InRow
  cluster_id : Nat
  pca_x : ℚ
  pca_y : ℚ
  edge_case_id : Option Nat
  new_guideline_improvement : Option String
deriving DecidableEq, Repr

/-- The write-back loop (lines 286-290): every row whose uid is in a merged
category's member list gets that category's dense id and description; later
categories overwrite earlier ones. -/
def assign_ids (rows : List WorkRow) (merged : List (String × List String)) :
    List WorkRow :=
  merged.enum.foldl (fun rs p =>
    rs.map (fun r =>
      if p.2.2.contains r.row.uid then
        { r with edge_case_id := some p.1, new_guideline_improvement := some p.2.1 }
      else r)) rows

/-- `cluster_summaries` (line 290): `edge_case_{i} -> description`. -/
def summaries_of (merged : List (String × List String)) : List (String × String) :=
  merged.enum.map (fun p => ("edge_case_" ++ toString p.1, p.2.1))

/-- Result of a synthesis call: the summaries dict, the projected records,
the new semantic model-file state, and the fit/load/persist events. -/
structure SynthRes where
  suggestions : List (String × String)
  improvement_clusters : List OutRow
  store : ModelStore
  events : List FitEvent
deriving Repr

/-- The cluster-assignment column: `fit_predict` of the fresh model or
`predict` of the loaded one (lines 212/233). -/
def semLabelOf (tid : Option String) (store : ModelStore) (oracle : ClusterOracle) :
    Nat → Nat :=
  if semLoaded tid store then oracle.predLabel else oracle.fitLabel

/-- The 2-D projection column: `fit_transform` or `transform`
(lines 217/230). -/
def semCoordOf (tid : Option String) (store : ModelStore) (oracle : ClusterOracle) :
    Nat → ℚ × ℚ :=
  if semLoaded tid store then oracle.predCoord else oracle.fitCoord

/-- The filtered dataframe with its `cluster_id` / `pca_x` / `pca_y` columns. -/
def synthWorkRows (rows : List InRow) (tid : Option String) (store : ModelStore)
    (oracle : ClusterOracle) : List WorkRow :=
  (rows.filter keepRow).enum.map (fun p =>
    WorkRow.mk p.2 (semLabelOf tid store oracle p.1)
      (semCoordOf tid store oracle p.1).1 (semCoordOf tid store oracle p.1).2 none none)

/-- `df[df["cluster_id"] == cluster_id]`'s uid column, in row order. -/
def synthClusterOf (rows : List InRow) (tid : Option String) (store : ModelStore)
    (oracle : ClusterOracle) : Nat → List String :=
  fun cid =>
    ((synthWorkRows rows tid store oracle).filter
      (fun r => r.cluster_id == cid)).map (·.row.uid)

/-- Model-file state and events of the fit-or-reuse step (lines 189-234). -/
def synthStoreEvents (tid : Option String) (store : ModelStore) (data_size : Nat) :
    ModelStore × List FitEvent :=
  if semLoaded tid store then (store, [FitEvent.loadedSemantic])
  else
    let (smin, smax) := sc_size_bounds data_size
    if pyTruthy tid then
      (⟨true, true⟩,
        [FitEvent.fitSemanticKMeans (data_size / 15 + 1) smin smax,
          FitEvent.fitSemanticPCA, FitEvent.savedSemantic])
    else
      (store,
        [FitEvent.fitSemanticKMeans (data_size / 15 + 1) smin smax,
          FitEvent.fitSemanticPCA])

/-- The `fields_to_include` projection of one enriched row (lines 300-308). -/
def outProj (r : WorkRow) : OutRow :=
  OutRow.mk r.row.uid r.row.text_to_annotate r.edge_case_id
    (some r.pca_x) (some r.pca_y) r.new_guideline_improvement

/-- The clustering-and-aggregation branch of synthesis (`data_size >= 2`,
lines 189-313). -/
def synthMulti (rows : List InRow) (tid : Option String) (store : ModelStore)
    (oracle : ClusterOracle) (aggResp : Nat → String) (mergeResp : String) :
    Option SynthRes :=
  let data_size := (rows.filter keepRow).length
  let actual_n_clusters := data_size / 15 + 1
  match build_new_rules (synthClusterOf rows tid store oracle) actual_n_clusters aggResp with
  | none => none
  | some nr =>
    match apply_merge nr actual_n_clusters mergeResp with
    | none => none
    | some merged =>
      some ⟨summaries_of merged,
        (assign_ids (synthWorkRows rows tid store oracle) merged).map outProj,
        (synthStoreEvents tid store data_size).1,
        (synthStoreEvents tid store data_size).2⟩

/-- Embedding of `synthesize_guideline_improvements`.  `none` models a raised
exception (bad LLM payload shapes or out-of-range positional indexing). -/
def synthesize_guideline_improvements (rows : List InRow) (tid : Option String)
    (store : ModelStore) (oracle : ClusterOracle) (aggResp : Nat → String)
    (mergeResp : String) : Option SynthRes :=
  let df := rows.filter keepRow
  if df.isEmpty then some ⟨[], [], store, []⟩
  else
    let suggestions := df.map (·.guideline_improvement)
    let data_size := suggestions.length
    if data_size ≤ 1 then
      let out := df.map (fun r =>
        OutRow.mk r.uid r.text_to_annotate (some 0) (some 0) (some 0)
          (some r.guideline_improvement))
      some ⟨[("edge_case_0", pyHead suggestions)], out, store, []⟩
    else
      synthMulti rows tid store oracle aggResp mergeResp

/-! ## `process_annotation_json` (services.py lines 316-394). -/

/-- One row of the returned `annotations` (`df.to_dict(orient="records")`).
`anno` is the `annotation` column and `raw_anno` the `raw_annotations`
column (field names shortened). -/
structure AnnRec where
  text_to_annotate : String
  uid : String
  cluster : Nat
  pca_x : ℚ
  pca_y : ℚ
  raw_anno : String
  analyses : JVal
  anno : JVal
  confidence : JVal
  new_edge_case : JVal
  guideline_improvement : JVal

/-- Python `data_parsed[k]` for a dict guaranteed to carry `k`. -/
def dGet (d : List (String × JVal)) (k : String) : JVal :=
  (alistLookup d k).getD JVal.jnull

/-- Embedding of `process_annotation_json`.  `setEnum` is the oracle for
`list(set(examples))` (Python's unordered-set iteration); `llmA` maps one
text to its completion (the `call_openai_annotation` retry loop runs until
every batch succeeds, so exactly one response per prompt, in order).
`none` models a raised exception (a response on which `parse_json_output`
raises). -/
def process_annotation_json (examples : List String)
    (setEnum : List String → List String) (st : Option MapSt) (fresh : Nat → String)
    (topStore : ModelStore) (oracle : ClusterOracle) (llmA : String → String) :
    Option (List AnnRec × MapSt × ModelStore × List FitEvent) :=
  let exs := setEnum examples
  let (uids, st') := resolve_uids st exs fresh
  let (cols, topStore', events) := cluster_texts_with_pca exs topStore oracle 4
  let annotated := exs.map llmA
  match mapO parse_json_output annotated with
  | none => none
  | some parsedList =>
    let recs := (List.range exs.length).map (fun i =>
      let parsed := parsedList.getD i []
      AnnRec.mk (exs.getD i "") (uids.getD i "") (cols.getD i (0, 0, 0)).1
        (cols.getD i (0, 0, 0)).2.1 (cols.getD i (0, 0, 0)).2.2 (annotated.getD i "")
        (dGet parsed "analysis") (dGet parsed "annotation") (dGet parsed "confidence")
        (dGet parsed "new_edge_case") (dGet parsed "new_edge_case_rule"))
    some (recs, st', topStore', events)

/-! ## Proof-auxiliary definitions. -/

/-- Recursive restatement of the partition loop of `create_answers_async`,
with the hit/miss counters explicit (proof vehicle for `partitionBatch`). -/
def partAux {μ ρ : Type} [DecidableEq μ] (model : String) (cache : LlmCache μ ρ) :
    List μ → Nat → Nat → List Int × List μ × List ρ
  | [], _, _ => ([], [], [])
  | m :: rest, nH, nM =>
    match alistLookup cache (model, m) with
    | some e =>
      (((nH : Int) + 1) :: (partAux model cache rest (nH + 1) nM).1,
        (partAux model cache rest (nH + 1) nM).2.1,
        e.response :: (partAux model cache rest (nH + 1) nM).2.2)
    | none =>
      ((-(nM : Int) - 1) :: (partAux model cache rest nH (nM + 1)).1,
        m :: (partAux model cache rest nH (nM + 1)).2.1,
        (partAux model cache rest nH (nM + 1)).2.2)

/-- The completion a prompt receives against the *current* cache state. -/
def answerCur {μ ρ : Type} [DecidableEq μ] (model : String) (cache : LlmCache μ ρ)
    (achatO : μ → Option (AchatRes ρ)) (m : μ) : Option ρ :=
  match alistLookup cache (model, m) with
  | some e => some e.response
  | none => (achatO m).map (·.content)

/-- Invariant of the evolving completion cache: every entry agrees with
`answerOf` over the starting cache, and entries are never deleted. -/
def CacheInv {μ ρ : Type} [DecidableEq μ] (model : String) (cache₀ : LlmCache μ ρ)
    (achatO : μ → Option (AchatRes ρ)) (cache : LlmCache μ ρ) : Prop :=
  ∀ m : μ,
    (∀ e, alistLookup cache (model, m) = some e →
      answerOf model cache₀ achatO m = some e.response) ∧
    (alistLookup cache (model, m) = none → alistLookup cache₀ (model, m) = none)

/-- Mutual-inverse invariant of the two persisted uid tables. -/
def GoodMap (s : MapSt) : Prop :=
  (∀ t u, alistLookup s.example2uid t = some u → alistLookup s.uid2example u = some t) ∧
  (∀ u t, alistLookup s.uid2example u = some t → alistLookup s.example2uid t = some u)

/-- Both-direction injectivity of the two uid tables (the claim's wording:
no two distinct texts share a uid, no two distinct uids share a text). -/
def InjMaps (s : MapSt) : Prop :=
  (∀ t₁ t₂ u, alistLookup s.example2uid t₁ = some u →
    alistLookup s.example2uid t₂ = some u → t₁ = t₂) ∧
  (∀ u₁ u₂ t, alistLookup s.uid2example u₁ = some t →
    alistLookup s.uid2example u₂ = some t → u₁ = u₂)

/-- Freshness of the `uuid4` stream relative to a persisted state: pairwise
distinct and not yet present as uids. -/
def FreshFor (fresh : Nat → String) (s : MapSt) : Prop :=
  Function.Injective fresh ∧ ∀ n, alistLookup s.uid2example (fresh n) = none

/-- All member uids of an ordered rules dict. -/
def valsOf (d : List (String × List String)) : List String := (d.map Prod.snd).flatten

/-! # Theorems -/

/-! ## Dictionary and `mapO` lemmas. -/

theorem alistLookup_cons {κ β : Type} [DecidableEq κ] (p : κ × β) (rest : List (κ × β))
    (k : κ) :
    alistLookup (p :: rest) k = if p.1 = k then some p.2 else alistLookup rest k := by
  by_cases h : p.1 = k <;> simp [alistLookup, List.find?_cons, h]

theorem alistLookup_map_update_ne {κ β : Type} [DecidableEq κ] {k k' : κ} (v : β)
    (hne : k' ≠ k) :
    ∀ l : List (κ × β),
      alistLookup (l.map (fun p => if p.1 = k then (k, v) else p)) k' =
        alistLookup l k' := by
  intro l
  induction l with
  | nil => rfl
  | cons p rest ih =>
    by_cases hp : p.1 = k
    · simp only [List.map_cons, hp, if_true, alistLookup_cons]
      have h1 : ¬ k = k' := fun h => hne h.symm
      have h2 : ¬ p.1 = k' := fun h => hne (h.symm.trans hp)
      simp [h1, h2, ih]
    · simp only [List.map_cons, hp, if_false, alistLookup_cons]
      by_cases hpk : p.1 = k' <;> simp [hpk, ih]

theorem alistLookup_map_update_self {κ β : Type} [DecidableEq κ] {k : κ} (v : β) :
    ∀ l : List (κ × β), l.any (fun p => p.1 == k) →
      alistLookup (l.map (fun p => if p.1 = k then (k, v) else p)) k = some v := by
  intro l
  induction l with
  | nil => intro h; simp at h
  | cons p rest ih =>
    intro h
    by_cases hp : p.1 = k
    · simp [List.map_cons, hp, alistLookup_cons]
    · simp only [List.any_cons, Bool.or_eq_true, beq_iff_eq] at h
      rcases h with h1 | h2
      · exact absurd h1 hp
      · simp only [List.map_cons, hp, if_false, alistLookup_cons]
        exact ih h2

theorem alistLookup_append_single {κ β : Type} [DecidableEq κ] {k k' : κ} (v : β) :
    ∀ l : List (κ × β), (∀ q ∈ l, q.1 ≠ k) →
      alistLookup (l ++ [(k, v)]) k' = if k' = k then some v else alistLookup l k' := by
  intro l
  induction l with
  | nil =>
    intro _
    by_cases hk : k' = k
    · subst hk
      simp [alistLookup_cons]
    · have h1 : ¬ k = k' := fun h => hk h.symm
      simp [alistLookup_cons, h1, hk, alistLookup]
  | cons p rest ih =>
    intro hnone
    have hp : p.1 ≠ k := hnone p (by simp)
    by_cases hpk : p.1 = k'
    · have hk : ¬ k' = k := fun h => hp (hpk.trans h)
      simp [List.cons_append, alistLookup_cons, hpk, hk]
    · simp only [List.cons_append, alistLookup_cons, hpk, if_false]
      exact ih (fun q hq => hnone q (by simp [hq]))

theorem alistLookup_insert {κ β : Type} [DecidableEq κ] (l : List (κ × β)) (k k' : κ)
    (v : β) :
    alistLookup (alistInsert l k v) k' = if k' = k then some v else alistLookup l k' := by
  by_cases hany : l.any (fun p => p.1 == k)
  · simp only [alistInsert, hany, if_true]
    by_cases hk : k' = k
    · subst hk
      simp [alistLookup_map_update_self v l hany]
    · simp [hk, alistLookup_map_update_ne v hk l]
  · simp only [alistInsert, hany, if_false]
    exact alistLookup_append_single v l (by
      intro q hq hqk
      exact hany (List.any_eq_true.2 ⟨q, hq, by simpa using hqk⟩))

theorem mapO_length {α β : Type} {f : α → Option β} :
    ∀ {l : List α} {r : List β}, mapO f l = some r → r.length = l.length := by
  intro l
  induction l with
  | nil => intro r h; simp only [mapO, Option.some.injEq] at h; subst h; rfl
  | cons a as ih =>
    intro r h
    simp only [mapO] at h
    cases hfa : f a with
    | none => rw [hfa] at h; exact absurd h (by simp)
    | some b =>
      cases hm : mapO f as with
      | none => rw [hfa, hm] at h; exact absurd h (by simp)
      | some bs =>
        rw [hfa, hm] at h
        simp only [Option.some.injEq] at h
        subst h
        simp [ih hm]

theorem mapO_get? {α β : Type} {f : α → Option β} :
    ∀ {l : List α} {r : List β}, mapO f l = some r →
      ∀ i : Nat, r.get? i = (l.get? i).bind f := by
  intro l
  induction l with
  | nil =>
    intro r h i
    simp only [mapO, Option.some.injEq] at h
    subst h
    simp
  | cons a as ih =>
    intro r h i
    simp only [mapO] at h
    cases hfa : f a with
    | none => rw [hfa] at h; exact absurd h (by simp)
    | some b =>
      cases hm : mapO f as with
      | none => rw [hfa, hm] at h; exact absurd h (by simp)
      | some bs =>
        rw [hfa, hm] at h
        simp only [Option.some.injEq] at h
        subst h
        cases i with
        | zero => simp [hfa]
        | succ j => simpa using ih hm j

theorem mapO_append {α β : Type} {f : α → Option β} {l₁ l₂ : List α} {r₁ r₂ : List β}
    (h₁ : mapO f l₁ = some r₁) (h₂ : mapO f l₂ = some r₂) :
    mapO f (l₁ ++ l₂) = some (r₁ ++ r₂) := by
  induction l₁ generalizing r₁ with
  | nil =>
    simp only [mapO, Option.some.injEq] at h₁
    subst h₁
    simpa using h₂
  | cons a as ih =>
    simp only [mapO] at h₁
    cases hfa : f a with
    | none => rw [hfa] at h₁; exact absurd h₁ (by simp)
    | some b =>
      cases hm : mapO f as with
      | none => rw [hfa, hm] at h₁; exact absurd h₁ (by simp)
      | some bs =>
        rw [hfa, hm] at h₁
        simp only [Option.some.injEq] at h₁
        subst h₁
        simp only [List.cons_append, mapO, hfa, List.append_eq, ih hm]

theorem mapO_congr {α β : Type} {f g : α → Option β} :
    ∀ {l : List α}, (∀ a ∈ l, f a = g a) → mapO f l = mapO g l := by
  intro l
  induction l with
  | nil => intro _; rfl
  | cons a as ih =>
    intro h
    simp only [mapO, h a (by simp), ih (fun x hx => h x (by simp [hx]))]

theorem mapO_zip {α β : Type} {f : α → Option β} :
    ∀ {l : List α} {r : List β}, mapO f l = some r →
      ∀ p ∈ l.zip r, f p.1 = some p.2 := by
  intro l
  induction l with
  | nil =>
    intro r h p hp
    simp only [mapO, Option.some.injEq] at h
    subst h
    simp at hp
  | cons a as ih =>
    intro r h p hp
    simp only [mapO] at h
    cases hfa : f a with
    | none => rw [hfa] at h; exact absurd h (by simp)
    | some b =>
      cases hm : mapO f as with
      | none => rw [hfa, hm] at h; exact absurd h (by simp)
      | some bs =>
        rw [hfa, hm] at h
        simp only [Option.some.injEq] at h
        subst h
        rcases (by simpa [List.zip_cons_cons] using hp : p = (a, b) ∨ p ∈ as.zip bs) with
          rfl | hmem
        · simpa using hfa
        · exact ih hm p hmem

/-! ## Claim C2: `parse_json_output` totality. -/

/-- Claim C2: the spec requires that `parse_json_output` never raises and
always returns a complete five-field record, with `confidence` defaulting to
50 and `annotation` to the sentinel -1 when unrecoverable.  The code violates
this: the fallback initializes defaults for `annotation`, `edge_case_rule`
and `confidence_score` but not for `new_edge_case`, so any response whose
fallback scan has no line containing `new_edge_case` (outside the earlier
`annotation` / `new_edge_case_rule` branches) raises `UnboundLocalError`
when the result dict is built.  At the failing input `"hello"` the strict
JSON parse fails and the fallback aborts; `none` is the modelled raise. -/
theorem c2_parse_json_output_raises_on_hello : parse_json_output "hello" = none := rfl

/-! ## Claim C9: non-positive edge-case numbers in the uid extraction. -/

/-- Claim C9: in the per-cluster categorization, an edge-case number `m`
exceeding the cluster size contributes nothing (it is dropped by the
`i <= len(cluster_df)` filter), while the non-positive number `0` passes the
filter and `iloc[0-1]` silently resolves to the cluster's last row, so the
extraction returns that row's uid. -/
theorem c9_nonpositive_edge_refs (l : List String) (h : l ≠ []) (m : Int)
    (hm : (l.length : Int) < m) :
    extract_category_uids l [0] = some [l.getLast h] ∧
    (∀ ids : List Int, extract_category_uids l (m :: ids) = extract_category_uids l ids) := by
  constructor
  · have h0 : ((0 : Int) ≤ (l.length : Int)) := Int.ofNat_nonneg _
    have hlen : 0 < l.length := List.length_pos.2 h
    have hiloc : pyIloc l (-1) = some (l.getLast h) := by
      have hneg : ¬ ((0 : Int) ≤ -1) := by decide
      have htn : ((-(-1) : Int)).toNat = 1 := by decide
      simp only [pyIloc, hneg, if_false, htn]
      rw [if_pos (by omega : 1 ≤ l.length)]
      have hget : l.get? (l.length - 1) = some (l.get ⟨l.length - 1, by omega⟩) :=
        List.get?_eq_get _
      rw [hget, List.getLast_eq_get]
    simp only [extract_category_uids, List.filter_cons, List.filter_nil]
    rw [if_pos (by exact decide_eq_true h0)]
    simp only [mapO, zero_sub, hiloc]
  · intro ids
    have hnot : ¬ (m ≤ (l.length : Int)) := not_le.2 hm
    simp only [extract_category_uids, List.filter_cons]
    rw [if_neg (by simpa using hnot)]

/-- Witness for C9 at a concrete three-row cluster. -/
theorem c9_witness :
    extract_category_uids ["a", "b", "c"] [0] = some ["c"] ∧
    extract_category_uids ["a", "b", "c"] [4, 2] = extract_category_uids ["a", "b", "c"] [2] := by
  have hc := c9_nonpositive_edge_refs ["a", "b", "c"] (by simp) 4 (by decide)
  exact ⟨hc.1, hc.2 [2]⟩

/-! ## Synthesis shortcut and clustering-parameter lemmas (C6, C7, C8). -/

theorem synthesize_empty_filter (rows : List InRow) (tid : Option String)
    (store : ModelStore) (oracle : ClusterOracle) (aggResp : Nat → String)
    (mergeResp : String) (hf : rows.filter keepRow = []) :
    synthesize_guideline_improvements rows tid store oracle aggResp mergeResp =
      some ⟨[], [], store, []⟩ := by
  simp [synthesize_guideline_improvements, hf]

theorem synthesize_single_filter (rows : List InRow) (tid : Option String)
    (store : ModelStore) (oracle : ClusterOracle) (aggResp : Nat → String)
    (mergeResp : String) (r : InRow) (hf : rows.filter keepRow = [r]) :
    synthesize_guideline_improvements rows tid store oracle aggResp mergeResp =
      some ⟨[("edge_case_0", r.guideline_improvement)],
        [OutRow.mk r.uid r.text_to_annotate (some 0) (some 0) (some 0)
          (some r.guideline_improvement)], store, []⟩ := by
  simp [synthesize_guideline_improvements, hf, pyHead]

theorem synthesize_eq_multi (rows : List InRow) (tid : Option String)
    (store : ModelStore) (oracle : ClusterOracle) (aggResp : Nat → String)
    (mergeResp : String) (hN : 2 ≤ (rows.filter keepRow).length) :
    synthesize_guideline_improvements rows tid store oracle aggResp mergeResp =
      synthMulti rows tid store oracle aggResp mergeResp := by
  have h1 : (rows.filter keepRow).isEmpty = false := by
    cases hf : rows.filter keepRow with
    | nil => rw [hf] at hN; simp at hN
    | cons a as => rfl
  have h2 : ¬ (rows.filter keepRow).length ≤ 1 := by omega
  simp only [synthesize_guideline_improvements, h1, Bool.false_eq_true, if_false,
    List.length_map]
  rw [if_neg h2]

theorem synthMulti_components (rows : List InRow) (tid : Option String)
    (store : ModelStore) (oracle : ClusterOracle) (aggResp : Nat → String)
    (mergeResp : String) (res : SynthRes)
    (hres : synthMulti rows tid store oracle aggResp mergeResp = some res) :
    ∃ nr merged,
      build_new_rules (synthClusterOf rows tid store oracle)
        ((rows.filter keepRow).length / 15 + 1) aggResp = some nr ∧
      apply_merge nr ((rows.filter keepRow).length / 15 + 1) mergeResp = some merged ∧
      res = ⟨summaries_of merged,
        (assign_ids (synthWorkRows rows tid store oracle) merged).map outProj,
        (synthStoreEvents tid store (rows.filter keepRow).length).1,
        (synthStoreEvents tid store (rows.filter keepRow).length).2⟩ := by
  simp only [synthMulti] at hres
  split at hres
  · exact absurd hres (by simp)
  · rename_i nr hb
    split at hres
    · exact absurd hres (by simp)
    · rename_i merged hm
      simp only [Option.some.injEq] at hres
      exact ⟨nr, merged, hb, hm, hres.symm⟩

/-- Claim C6: with zero qualifying rules (all edge-case rules equal to the
EMPTY sentinel after trimming and case folding) synthesis returns an empty
category set and an empty record list; with exactly one qualifying rule it
returns exactly the category `edge_case_0` holding that rule's uid with
projection (0, 0), and it fits, loads, or persists no clustering model
(the model-file state is unchanged and the event list empty in both cases). -/
theorem c6_zero_one_rule_shortcut (rows : List InRow) (tid : Option String)
    (store : ModelStore) (oracle : ClusterOracle) (aggResp : Nat → String)
    (mergeResp : String) :
    (rows.filter keepRow = [] →
      synthesize_guideline_improvements rows tid store oracle aggResp mergeResp =
        some ⟨[], [], store, []⟩) ∧
    (∀ r : InRow, rows.filter keepRow = [r] →
      synthesize_guideline_improvements rows tid store oracle aggResp mergeResp =
        some ⟨[("edge_case_0", r.guideline_improvement)],
          [OutRow.mk r.uid r.text_to_annotate (some 0) (some 0) (some 0)
            (some r.guideline_improvement)], store, []⟩) :=
  ⟨fun hf => synthesize_empty_filter rows tid store oracle aggResp mergeResp hf,
    fun r hf => synthesize_single_filter rows tid store oracle aggResp mergeResp r hf⟩

/-- Witness for C6: a concrete all-EMPTY call and a concrete one-rule call. -/
theorem c6_witness :
    synthesize_guideline_improvements [⟨"u1", "t1", " empty "⟩] (some "t")
      ⟨false, false⟩ ⟨fun _ => 0, fun _ => (0, 0), fun _ => 0, fun _ => (0, 0)⟩
      (fun _ => "") "" = some ⟨[], [], ⟨false, false⟩, []⟩ ∧
    synthesize_guideline_improvements [⟨"u1", "t1", "when a -> x"⟩, ⟨"u2", "t2", "EMPTY"⟩]
      (some "t") ⟨false, false⟩
      ⟨fun _ => 0, fun _ => (0, 0), fun _ => 0, fun _ => (0, 0)⟩ (fun _ => "") "" =
      some ⟨[("edge_case_0", "when a -> x")],
        [OutRow.mk "u1" "t1" (some 0) (some 0) (some 0) (some "when a -> x")],
        ⟨false, false⟩, []⟩ :=
  ⟨(c6_zero_one_rule_shortcut _ _ _ _ _ _).1 (by rfl),
    (c6_zero_one_rule_shortcut _ _ _ _ _ _).2 ⟨"u1", "t1", "when a -> x"⟩ (by rfl)⟩

/-- Claim C7: when `synthesize_guideline_improvements` fits a new semantic
clustering model on `N >= 2` qualifying rules, it uses
`K = floor(N / 15) + 1` clusters, and the per-cluster size bounds follow the
step function of `N`: unbounded for `N <= 20`, min 5 / max 20 for
`20 < N <= 40`, min 10 / max 20 for `N > 40`. -/
theorem c7_cluster_count_and_bounds (rows : List InRow) (tid : Option String)
    (store : ModelStore) (oracle : ClusterOracle) (aggResp : Nat → String)
    (mergeResp : String) (res : SynthRes)
    (hres : synthesize_guideline_improvements rows tid store oracle aggResp mergeResp =
      some res)
    (hN : 2 ≤ (rows.filter keepRow).length)
    (hfit : semLoaded tid store = false) :
    ((rows.filter keepRow).length ≤ 20 →
      res.events.head? = some (FitEvent.fitSemanticKMeans
        ((rows.filter keepRow).length / 15 + 1) none none)) ∧
    (20 < (rows.filter keepRow).length → (rows.filter keepRow).length ≤ 40 →
      res.events.head? = some (FitEvent.fitSemanticKMeans
        ((rows.filter keepRow).length / 15 + 1) (some 5) (some 20))) ∧
    (40 < (rows.filter keepRow).length →
      res.events.head? = some (FitEvent.fitSemanticKMeans
        ((rows.filter keepRow).length / 15 + 1) (some 10) (some 20))) := by
  rw [synthesize_eq_multi rows tid store oracle aggResp mergeResp hN] at hres
  obtain ⟨nr, merged, _, _, hre⟩ :=
    synthMulti_components rows tid store oracle aggResp mergeResp res hres
  subst hre
  simp only [synthStoreEvents, hfit, Bool.false_eq_true, if_false]
  refine ⟨fun h20 => ?_, fun h20 h40 => ?_, fun h40 => ?_⟩
  · simp only [sc_size_bounds, if_pos h20]
    cases htid : pyTruthy tid <;> simp
  · simp only [sc_size_bounds, if_neg (by omega : ¬ (rows.filter keepRow).length ≤ 20),
      if_pos h40]
    cases htid : pyTruthy tid <;> simp
  · simp only [sc_size_bounds, if_neg (by omega : ¬ (rows.filter keepRow).length ≤ 20),
      if_neg (by omega : ¬ (rows.filter keepRow).length ≤ 40)]
    cases htid : pyTruthy tid <;> simp

/-- Witness for C7 at `N = 25` qualifying rules: `K = 2`, bounds (5, 20). -/
theorem c7_witness :
    2 ≤ (((List.range 25).map (fun i => InRow.mk ("u" ++ toString i) "t" "when a -> x")).filter
      keepRow).length ∧
    semLoaded (some "t") ⟨false, false⟩ = false ∧
    (synthesize_guideline_improvements
      ((List.range 25).map (fun i => InRow.mk ("u" ++ toString i) "t" "when a -> x"))
      (some "t") ⟨false, false⟩
      ⟨fun _ => 0, fun _ => (0, 0), fun _ => 0, fun _ => (0, 0)⟩
      (fun _ => "NO") "NO MERGE").map (fun res => res.events.head?) =
      some (some (FitEvent.fitSemanticKMeans 2 (some 5) (some 20))) := by
  refine ⟨by decide, by decide, ?_⟩
  have hs : (synthesize_guideline_improvements
      ((List.range 25).map (fun i => InRow.mk ("u" ++ toString i) "t" "when a -> x"))
      (some "t") ⟨false, false⟩
      ⟨fun _ => 0, fun _ => (0, 0), fun _ => 0, fun _ => (0, 0)⟩
      (fun _ => "NO") "NO MERGE").isSome = true := by rfl
  cases hx : synthesize_guideline_improvements
      ((List.range 25).map (fun i => InRow.mk ("u" ++ toString i) "t" "when a -> x"))
      (some "t") ⟨false, false⟩
      ⟨fun _ => 0, fun _ => (0, 0), fun _ => 0, fun _ => (0, 0)⟩
      (fun _ => "NO") "NO MERGE" with
  | none => rw [hx] at hs; cases hs
  | some res =>
    have h := c7_cluster_count_and_bounds _ _ _ _ _ _ res hx (by decide) (by decide)
    simp only [Option.map_some', Option.some.injEq]
    exact h.2.1 (by decide) (by decide)

/-- Claim C8: once the model pair for a task and purpose is persisted, a call
that finds it predicts only: `cluster_texts_with_pca` with both topical
files present leaves the file state unchanged and fits nothing, and
`synthesize_guideline_improvements` with a truthy task id and both semantic
files present leaves the state unchanged and records at most the load. -/
theorem c8_persisted_models_never_refit (texts : List String) (oracle : ClusterOracle)
    (n : Nat) (rows : List InRow) (tid : Option String) (oracle' : ClusterOracle)
    (aggResp : Nat → String) (mergeResp : String) (res : SynthRes)
    (htid : pyTruthy tid = true)
    (hres : synthesize_guideline_improvements rows tid ⟨true, true⟩ oracle' aggResp
      mergeResp = some res) :
    ((cluster_texts_with_pca texts ⟨true, true⟩ oracle n).2.1 = ⟨true, true⟩ ∧
      (cluster_texts_with_pca texts ⟨true, true⟩ oracle n).2.2 = []) ∧
    (res.store = ⟨true, true⟩ ∧ ∀ e ∈ res.events, e = FitEvent.loadedSemantic) := by
  constructor
  · simp [cluster_texts_with_pca]
  · have hloaded : semLoaded tid ⟨true, true⟩ = true := by
      simp [semLoaded, htid]
    rcases Nat.lt_or_ge (rows.filter keepRow).length 2 with hlt | hge
    · cases hf : rows.filter keepRow with
      | nil =>
        rw [synthesize_empty_filter rows tid _ oracle' aggResp mergeResp hf] at hres
        simp only [Option.some.injEq] at hres
        subst hres
        simp
      | cons r rest =>
        cases rest with
        | nil =>
          rw [synthesize_single_filter rows tid _ oracle' aggResp mergeResp r hf] at hres
          simp only [Option.some.injEq] at hres
          subst hres
          simp
        | cons r2 rest2 => rw [hf] at hlt; simp at hlt; omega
    · rw [synthesize_eq_multi rows tid _ oracle' aggResp mergeResp hge] at hres
      obtain ⟨nr, merged, _, _, hre⟩ :=
        synthMulti_components rows tid _ oracle' aggResp mergeResp res hres
      subst hre
      simp [synthStoreEvents, hloaded]

/-- Witness for C8 at concrete inputs with both model pairs present. -/
theorem c8_witness :
    pyTruthy (some "t") = true ∧
    (cluster_texts_with_pca ["x"] ⟨true, true⟩
      ⟨fun _ => 0, fun _ => (0, 0), fun _ => 0, fun _ => (0, 0)⟩ 4).2.1 = ⟨true, true⟩ ∧
    (synthesize_guideline_improvements [InRow.mk "u1" "t1" "when a -> x"] (some "t")
      ⟨true, true⟩ ⟨fun _ => 0, fun _ => (0, 0), fun _ => 0, fun _ => (0, 0)⟩
      (fun _ => "") "").map (fun res => res.store) = some ⟨true, true⟩ := by
  have hs : (synthesize_guideline_improvements [InRow.mk "u1" "t1" "when a -> x"] (some "t")
      ⟨true, true⟩ ⟨fun _ => 0, fun _ => (0, 0), fun _ => 0, fun _ => (0, 0)⟩
      (fun _ => "") "").isSome = true := by rfl
  cases hx : synthesize_guideline_improvements [InRow.mk "u1" "t1" "when a -> x"] (some "t")
      ⟨true, true⟩ ⟨fun _ => 0, fun _ => (0, 0), fun _ => 0, fun _ => (0, 0)⟩
      (fun _ => "") "" with
  | none => rw [hx] at hs; cases hs
  | some res =>
    have h := c8_persisted_models_never_refit ["x"]
      ⟨fun _ => 0, fun _ => (0, 0), fun _ => 0, fun _ => (0, 0)⟩ 4
      [InRow.mk "u1" "t1" "when a -> x"] (some "t")
      ⟨fun _ => 0, fun _ => (0, 0), fun _ => 0, fun _ => (0, 0)⟩ (fun _ => "") ""
      res (by decide) hx
    refine ⟨by decide, h.1.1, ?_⟩
    simp only [Option.map_some', Option.some.injEq]
    exact h.2.1


/-! ## Identity-mapper lemmas (C4, C5). -/

theorem resolveStep_lookup_mono (fresh : Nat → String) (p : MapSt × Nat) (ex t u : String)
    (h : alistLookup p.1.example2uid t = some u) :
    alistLookup (resolveStep fresh p ex).1.example2uid t = some u := by
  unfold resolveStep
  cases hx : alistLookup p.1.example2uid ex with
  | some _ => exact h
  | none =>
    simp only []
    rw [alistLookup_insert]
    split
    · rename_i hte
      subst hte
      rw [h] at hx
      cases hx
    · exact h

theorem resolveFold_lookup_mono (fresh : Nat → String) (xs : List String) :
    ∀ (p : MapSt × Nat) (t u : String), alistLookup p.1.example2uid t = some u →
      alistLookup ((xs.foldl (resolveStep fresh) p)).1.example2uid t = some u := by
  induction xs with
  | nil => intro p t u h; exact h
  | cons x rest ih =>
    intro p t u h
    exact ih _ t u (resolveStep_lookup_mono fresh p x t u h)

theorem resolveFold_isSome (fresh : Nat → String) (xs : List String) :
    ∀ (p : MapSt × Nat) (x : String), x ∈ xs →
      (alistLookup ((xs.foldl (resolveStep fresh) p)).1.example2uid x).isSome := by
  induction xs with
  | nil => intro p x hx; simp at hx
  | cons y rest ih =>
    intro p x hx
    rcases List.mem_cons.1 hx with rfl | hmem
    · have h1 : ∃ u, alistLookup ((resolveStep fresh p x).1.example2uid) x = some u := by
        unfold resolveStep
        cases hx2 : alistLookup p.1.example2uid x with
        | some u => exact ⟨u, hx2⟩
        | none =>
          refine ⟨fresh p.2, ?_⟩
          simp only []
          rw [alistLookup_insert, if_pos rfl]
      obtain ⟨u, hu⟩ := h1
      have hm := resolveFold_lookup_mono fresh rest (resolveStep fresh p x) x u hu
      rw [List.foldl_cons]
      simp [hm]
    · rw [List.foldl_cons]
      exact ih (resolveStep fresh p y) x hmem

theorem resolveFold_noop (fresh : Nat → String) (xs : List String) :
    ∀ p : MapSt × Nat, (∀ x ∈ xs, (alistLookup p.1.example2uid x).isSome) →
      xs.foldl (resolveStep fresh) p = p := by
  induction xs with
  | nil => intro p _; rfl
  | cons x rest ih =>
    intro p h
    have hx := h x (by simp)
    have hstep : resolveStep fresh p x = p := by
      unfold resolveStep
      cases hx2 : alistLookup p.1.example2uid x with
      | some _ => rfl
      | none => rw [hx2] at hx; simp at hx
    rw [List.foldl_cons, hstep]
    exact ih p (fun y hy => h y (by simp [hy]))

theorem zipFold_mono (ps : List (String × String)) :
    ∀ (d : List (String × String)) (k : String), (∀ r ∈ ps, r.2 ≠ k) →
      alistLookup (ps.foldl (fun d p => alistInsert d p.2 p.1) d) k = alistLookup d k := by
  induction ps with
  | nil => intro d k _; rfl
  | cons p rest ih =>
    intro d k h
    rw [List.foldl_cons, ih _ k (fun r hr => h r (by simp [hr])), alistLookup_insert,
      if_neg (fun hk => h p (by simp) hk.symm)]

theorem zipFold_lookup (ps : List (String × String)) :
    ∀ d : List (String × String), (ps.map Prod.snd).Nodup →
      (∀ q ∈ ps, alistLookup d q.2 = none) →
      ∀ q ∈ ps, alistLookup (ps.foldl (fun d p => alistInsert d p.2 p.1) d) q.2 = some q.1 := by
  induction ps with
  | nil => intro d _ _ q hq; simp at hq
  | cons p rest ih =>
    intro d hnd hnone q hq
    have hnd' : p.2 ∉ rest.map Prod.snd ∧ (rest.map Prod.snd).Nodup :=
      List.nodup_cons.1 (by rw [List.map_cons] at hnd; exact hnd)
    rw [List.foldl_cons]
    rcases List.mem_cons.1 hq with rfl | hmem
    · rw [zipFold_mono rest _ q.2 ?_]
      · rw [alistLookup_insert, if_pos rfl]
      · intro r hr hrk
        exact hnd'.1 (hrk ▸ List.mem_map.2 ⟨r, hr, rfl⟩)
    · refine ih _ hnd'.2 (fun r hr => ?_) q hmem
      rw [alistLookup_insert, if_neg ?_]
      · exact hnone r (by simp [hr])
      · intro hrp
        exact hnd'.1 (hrp ▸ List.mem_map.2 ⟨r, hr, rfl⟩)

theorem zipFold_mem_of_lookup (ps : List (String × String)) :
    ∀ (d : List (String × String)) (k v : String),
      alistLookup (ps.foldl (fun d p => alistInsert d p.2 p.1) d) k = some v →
      (v, k) ∈ ps ∨ alistLookup d k = some v := by
  induction ps with
  | nil => intro d k v h; exact Or.inr h
  | cons p rest ih =>
    intro d k v h
    rw [List.foldl_cons] at h
    rcases ih _ k v h with hmem | hd
    · exact Or.inl (by simp [hmem])
    · rw [alistLookup_insert] at hd
      by_cases hk : k = p.2
      · rw [if_pos hk] at hd
        injection hd with hv
        subst hk
        subst hv
        exact Or.inl (by simp)
      · rw [if_neg hk] at hd
        exact Or.inr hd

theorem zipFoldF_mono (ps : List (String × String)) :
    ∀ (d : List (String × String)) (k : String), (∀ r ∈ ps, r.1 ≠ k) →
      alistLookup (ps.foldl (fun d p => alistInsert d p.1 p.2) d) k = alistLookup d k := by
  induction ps with
  | nil => intro d k _; rfl
  | cons p rest ih =>
    intro d k h
    rw [List.foldl_cons, ih _ k (fun r hr => h r (by simp [hr])), alistLookup_insert,
      if_neg (fun hk => h p (by simp) hk.symm)]

theorem zipFoldF_lookup (ps : List (String × String)) :
    ∀ d : List (String × String), (ps.map Prod.fst).Nodup →
      (∀ q ∈ ps, alistLookup d q.1 = none) →
      ∀ q ∈ ps, alistLookup (ps.foldl (fun d p => alistInsert d p.1 p.2) d) q.1 = some q.2 := by
  induction ps with
  | nil => intro d _ _ q hq; simp at hq
  | cons p rest ih =>
    intro d hnd hnone q hq
    have hnd' : p.1 ∉ rest.map Prod.fst ∧ (rest.map Prod.fst).Nodup :=
      List.nodup_cons.1 (by rw [List.map_cons] at hnd; exact hnd)
    rw [List.foldl_cons]
    rcases List.mem_cons.1 hq with rfl | hmem
    · rw [zipFoldF_mono rest _ q.1 ?_]
      · rw [alistLookup_insert, if_pos rfl]
      · intro r hr hrk
        exact hnd'.1 (hrk ▸ List.mem_map.2 ⟨r, hr, rfl⟩)
    · refine ih _ hnd'.2 (fun r hr => ?_) q hmem
      rw [alistLookup_insert, if_neg ?_]
      · exact hnone r (by simp [hr])
      · intro hrp
        exact hnd'.1 (hrp ▸ List.mem_map.2 ⟨r, hr, rfl⟩)

theorem zipFoldF_mem_of_lookup (ps : List (String × String)) :
    ∀ (d : List (String × String)) (k v : String),
      alistLookup (ps.foldl (fun d p => alistInsert d p.1 p.2) d) k = some v →
      (k, v) ∈ ps ∨ alistLookup d k = some v := by
  induction ps with
  | nil => intro d k v h; exact Or.inr h
  | cons p rest ih =>
    intro d k v h
    rw [List.foldl_cons] at h
    rcases ih _ k v h with hmem | hd
    · exact Or.inl (by simp [hmem])
    · rw [alistLookup_insert] at hd
      by_cases hk : k = p.1
      · rw [if_pos hk] at hd
        injection hd with hv
        subst hk
        subst hv
        exact Or.inl (by simp)
      · rw [if_neg hk] at hd
        exact Or.inr hd

theorem zip_get?_of_get? {α β : Type} :
    ∀ (a : List α) (b : List β) (i : Nat) (x : α) (y : β),
      a.get? i = some x → b.get? i = some y → (a.zip b).get? i = some (x, y) := by
  intro a
  induction a with
  | nil => intro b i x y h _; simp at h
  | cons a0 as ih =>
    intro b i x y ha hb
    cases b with
    | nil => simp at hb
    | cons b0 bs =>
      cases i with
      | zero =>
        simp only [List.get?] at ha hb
        injection ha with ha
        injection hb with hb
        subst ha
        subst hb
        rfl
      | succ j =>
        simpa [List.zip_cons_cons] using ih bs j x y (by simpa using ha) (by simpa using hb)

/-- Claim C4: uid resolution is idempotent per task.  For deduplicated input
(as produced by `list(set(examples))` upstream): a text already present in
the persisted mapping resolves to its previously assigned uid and is never
minted a new one, and running the same batch again against the state the
first call persisted returns exactly the same uid list, whether or not a
mapping existed before the first call. -/
theorem c4_uid_resolution_idempotent (st0 : Option MapSt) (xs : List String)
    (fresh fresh' : Nat → String) (hnd : xs.Nodup) :
    (∀ s : MapSt, st0 = some s → ∀ (i : Nat) (t u : String), xs.get? i = some t →
      alistLookup s.example2uid t = some u →
      (resolve_uids st0 xs fresh).1.get? i = some u) ∧
    (resolve_uids (some (resolve_uids st0 xs fresh).2) xs fresh').1 =
      (resolve_uids st0 xs fresh).1 := by
  constructor
  · rintro s rfl i t u hget hlook
    simp only [resolve_uids, List.get?_map, hget, Option.map_some']
    rw [resolveFold_lookup_mono fresh xs (s, 0) t u hlook]
    rfl
  · cases st0 with
    | some s =>
      have hnoop := resolveFold_noop fresh' xs ((xs.foldl (resolveStep fresh) (s, 0)).1, 0)
        (fun x hx => resolveFold_isSome fresh xs (s, 0) x hx)
      simp only [resolve_uids]
      rw [hnoop]
    | none =>
      have hlen : ((List.range xs.length).map fresh).length = xs.length := by simp
      have hsnd : (((List.range xs.length).map fresh).zip xs).map Prod.snd = xs :=
        List.map_snd_zip _ _ (le_of_eq hlen.symm)
      have hkeysnd : ((((List.range xs.length).map fresh).zip xs).map Prod.snd).Nodup := by
        rw [hsnd]; exact hnd
      have hzl := zipFold_lookup (((List.range xs.length).map fresh).zip xs) []
        hkeysnd (fun q _ => rfl)
      have hsome : ∀ x ∈ xs,
          (alistLookup (((((List.range xs.length).map fresh).zip xs).foldl
            (fun d p => alistInsert d p.2 p.1) [])) x).isSome := by
        intro x hx
        rw [← hsnd] at hx
        obtain ⟨q, hq, hq2⟩ := List.mem_map.1 hx
        rw [← hq2, hzl q hq]
        rfl
      have hnoop := resolveFold_noop fresh' xs
        (⟨(((List.range xs.length).map fresh).zip xs).foldl
            (fun d p => alistInsert d p.1 p.2) [],
          (((List.range xs.length).map fresh).zip xs).foldl
            (fun d p => alistInsert d p.2 p.1) []⟩, 0)
        (fun x hx => hsome x hx)
      simp only [resolve_uids]
      rw [hnoop]
      apply List.ext_get?
      intro i
      cases hxi : xs.get? i with
      | none =>
        have hge : xs.length ≤ i := List.get?_eq_none.1 hxi
        rw [List.get?_map, hxi, List.get?_eq_none.2 (by simpa using hge)]
        rfl
      | some t =>
        have hlt : i < xs.length := by
          rcases List.get?_eq_some.1 hxi with ⟨h, _⟩
          exact h
        have huget : ((List.range xs.length).map fresh).get? i = some (fresh i) := by
          rw [List.get?_map, List.get?_range hlt]
          rfl
        have hpget := zip_get?_of_get? ((List.range xs.length).map fresh) xs i
          (fresh i) t huget hxi
        have hmem := List.get?_mem hpget
        have hval := hzl (fresh i, t) hmem
        rw [List.get?_map, hxi, huget]
        simp only [Option.map_some']
        rw [hval]
        rfl

/-- Witness for C4: the text "A" is persisted with uid "u0"; resolving
["A", "B"] keeps "u0" for "A", and an immediate second batch resolves to the
same uid list. -/
theorem c4_witness :
    (resolve_uids (some ⟨[("u0", "A")], [("A", "u0")]⟩) ["A", "B"]
      (fun n => "w" ++ toString n)).1.get? 0 = some "u0" ∧
    (resolve_uids (some (resolve_uids (some ⟨[("u0", "A")], [("A", "u0")]⟩) ["A", "B"]
        (fun n => "w" ++ toString n)).2) ["A", "B"] (fun n => "v" ++ toString n)).1 =
      (resolve_uids (some ⟨[("u0", "A")], [("A", "u0")]⟩) ["A", "B"]
        (fun n => "w" ++ toString n)).1 := by
  have h := c4_uid_resolution_idempotent (some ⟨[("u0", "A")], [("A", "u0")]⟩) ["A", "B"]
    (fun n => "w" ++ toString n) (fun n => "v" ++ toString n) (by decide)
  exact ⟨h.1 ⟨[("u0", "A")], [("A", "u0")]⟩ rfl 0 "A" "u0" rfl (by rfl), h.2⟩

theorem goodMap_injMaps (s : MapSt) (h : GoodMap s) : InjMaps s := by
  constructor
  · intro t1 t2 u h1 h2
    have k1 := h.1 t1 u h1
    have k2 := h.1 t2 u h2
    injection k1.symm.trans k2
  · intro u1 u2 t h1 h2
    have k1 := h.2 u1 t h1
    have k2 := h.2 u2 t h2
    injection k1.symm.trans k2

theorem goodMap_insert_pair (s : MapSt) (ex uid : String) (hg : GoodMap s)
    (hex : alistLookup s.example2uid ex = none)
    (huid : alistLookup s.uid2example uid = none) :
    GoodMap ⟨alistInsert s.uid2example uid ex, alistInsert s.example2uid ex uid⟩ := by
  constructor
  · intro t u h1
    simp only at h1 ⊢
    rw [alistLookup_insert] at h1
    by_cases hte : t = ex
    · rw [if_pos hte] at h1
      injection h1 with h1
      subst hte
      subst h1
      rw [alistLookup_insert, if_pos rfl]
    · rw [if_neg hte] at h1
      have h2 := hg.1 t u h1
      rw [alistLookup_insert]
      split
      · rename_i hue
        rw [hue, huid] at h2
        cases h2
      · exact h2
  · intro u t h1
    simp only at h1 ⊢
    rw [alistLookup_insert] at h1
    by_cases hue : u = uid
    · rw [if_pos hue] at h1
      injection h1 with h1
      subst hue
      subst h1
      rw [alistLookup_insert, if_pos rfl]
    · rw [if_neg hue] at h1
      have h2 := hg.2 u t h1
      rw [alistLookup_insert]
      split
      · rename_i hte
        rw [hte, hex] at h2
        cases h2
      · exact h2

theorem resolveStep_good (fresh : Nat → String) (hinj : Function.Injective fresh)
    (p : MapSt × Nat) (ex : String) (hg : GoodMap p.1)
    (hf : ∀ n, p.2 ≤ n → alistLookup p.1.uid2example (fresh n) = none) :
    GoodMap (resolveStep fresh p ex).1 ∧
    ∀ n, (resolveStep fresh p ex).2 ≤ n →
      alistLookup (resolveStep fresh p ex).1.uid2example (fresh n) = none := by
  unfold resolveStep
  cases hx : alistLookup p.1.example2uid ex with
  | some _ => exact ⟨hg, hf⟩
  | none =>
    simp only []
    constructor
    · exact goodMap_insert_pair p.1 ex (fresh p.2) hg hx (hf p.2 (le_refl _))
    · intro n hn
      rw [alistLookup_insert]
      split
      · rename_i he
        have := hinj he
        omega
      · exact hf n (by omega)

theorem resolveFold_good (fresh : Nat → String) (hinj : Function.Injective fresh)
    (xs : List String) :
    ∀ p : MapSt × Nat, GoodMap p.1 →
      (∀ n, p.2 ≤ n → alistLookup p.1.uid2example (fresh n) = none) →
      GoodMap ((xs.foldl (resolveStep fresh) p)).1 := by
  induction xs with
  | nil => intro p hg _; exact hg
  | cons x rest ih =>
    intro p hg hf
    rw [List.foldl_cons]
    have hstep := resolveStep_good fresh hinj p x hg hf
    exact ih _ hstep.1 hstep.2

theorem resolve_none_good (xs : List String) (fresh : Nat → String) (hnd : xs.Nodup)
    (hinj : Function.Injective fresh) : GoodMap (resolve_uids none xs fresh).2 := by
  have hlen : ((List.range xs.length).map fresh).length = xs.length := by simp
  have hsnd : (((List.range xs.length).map fresh).zip xs).map Prod.snd = xs :=
    List.map_snd_zip _ _ (le_of_eq hlen.symm)
  have hfst : (((List.range xs.length).map fresh).zip xs).map Prod.fst =
      (List.range xs.length).map fresh :=
    List.map_fst_zip _ _ (le_of_eq hlen)
  have hkeysnd : ((((List.range xs.length).map fresh).zip xs).map Prod.snd).Nodup := by
    rw [hsnd]; exact hnd
  have hkeyfst : ((((List.range xs.length).map fresh).zip xs).map Prod.fst).Nodup := by
    rw [hfst]
    exact (List.nodup_range xs.length).map hinj
  constructor
  · intro t u h1
    simp only [resolve_uids] at h1 ⊢
    rcases zipFold_mem_of_lookup _ [] t u h1 with hmem | hd
    · exact zipFoldF_lookup _ [] hkeyfst (fun q _ => rfl) (u, t) hmem
    · cases hd
  · intro u t h1
    simp only [resolve_uids] at h1 ⊢
    rcases zipFoldF_mem_of_lookup _ [] u t h1 with hmem | hd
    · exact zipFold_lookup _ [] hkeysnd (fun q _ => rfl) (u, t) hmem
    · cases hd

theorem resolve_one_good (s : MapSt) (x freshUid : String) (hg : GoodMap s)
    (huid : alistLookup s.uid2example freshUid = none) :
    GoodMap (resolve_one s x freshUid).2 := by
  unfold resolve_one
  cases hx : alistLookup s.example2uid x with
  | some _ => exact hg
  | none => exact goodMap_insert_pair s x freshUid hg hx huid

/-- Claim C5: after either annotation operation (batch resolution with or
without a pre-existing mapping, or the single-example resolution), both
persisted uid tables remain injective in both directions — no two distinct
texts share a uid and no two distinct uids share a text — assuming the
`uuid4` stream is pairwise distinct and absent from the persisted tables,
and given the tables' mutual-inverse invariant (which these operations
themselves maintain). -/
theorem c5_uid_tables_injective (s : MapSt) (xs : List String) (fresh : Nat → String)
    (x freshUid : String) (hGood : GoodMap s) (hfresh : FreshFor fresh s)
    (hnd : xs.Nodup) (huid : alistLookup s.uid2example freshUid = none) :
    InjMaps (resolve_uids (some s) xs fresh).2 ∧
    InjMaps (resolve_uids none xs fresh).2 ∧
    InjMaps (resolve_one s x freshUid).2 := by
  refine ⟨goodMap_injMaps _ ?_, goodMap_injMaps _ (resolve_none_good xs fresh hnd hfresh.1),
    goodMap_injMaps _ (resolve_one_good s x freshUid hGood huid)⟩
  simp only [resolve_uids]
  exact resolveFold_good fresh hfresh.1 xs (s, 0) hGood (fun n _ => hfresh.2 n)

theorem freshInj_replicate : Function.Injective (fun n : Nat => String.mk (List.replicate n 'u')) := by
  intro m n h
  have := congrArg (fun s : String => s.data.length) h
  simpa using this

/-- Witness for C5 from the empty persisted state with a concrete injective
uid stream. -/
theorem c5_witness :
    InjMaps (resolve_uids (some ⟨[], []⟩) ["A", "B"]
      (fun n => String.mk (List.replicate n 'u'))).2 ∧
    InjMaps (resolve_uids none ["A", "B"] (fun n => String.mk (List.replicate n 'u'))).2 ∧
    InjMaps (resolve_one ⟨[], []⟩ "C" "z").2 := by
  exact c5_uid_tables_injective ⟨[], []⟩ ["A", "B"]
    (fun n => String.mk (List.replicate n 'u')) "C" "z"
    ⟨fun t u h => (nomatch h), fun u t h => (nomatch h)⟩
    ⟨freshInj_replicate, fun n => rfl⟩ (by decide) rfl

/-! ## Synthesis coverage lemmas (C3). -/

theorem mem_valsOf_iff (d : List (String × List String)) (u : String) :
    u ∈ valsOf d ↔ ∃ q ∈ d, u ∈ q.2 := by
  unfold valsOf
  constructor
  · intro h
    rcases List.mem_flatten.1 h with ⟨l, hl, hu⟩
    rcases List.mem_map.1 hl with ⟨q, hq, hql⟩
    exact ⟨q, hq, hql ▸ hu⟩
  · rintro ⟨q, hq, hu⟩
    exact List.mem_flatten.2 ⟨q.2, List.mem_map.2 ⟨q, hq, rfl⟩, hu⟩

theorem mem_valsOf_rulesAdd (d : List (String × List String)) (k : String)
    (v : List String) (u : String) :
    u ∈ valsOf (rulesAdd d k v) ↔ u ∈ valsOf d ∨ u ∈ v := by
  unfold rulesAdd
  by_cases hany : d.any (fun p => p.1 == k)
  · simp only [hany, if_true]
    rw [mem_valsOf_iff, mem_valsOf_iff]
    constructor
    · rintro ⟨q, hq, hu⟩
      rcases List.mem_map.1 hq with ⟨p, hp, hpq⟩
      by_cases hpk : p.1 = k
      · rw [← hpq] at hu
        simp only [hpk, if_true] at hu
        rcases List.mem_append.1 hu with h1 | h2
        · exact Or.inl ⟨p, hp, h1⟩
        · exact Or.inr h2
      · rw [← hpq] at hu
        simp only [hpk, if_false] at hu
        exact Or.inl ⟨p, hp, hu⟩
    · rintro (⟨p, hp, hu⟩ | hv)
      · by_cases hpk : p.1 = k
        · refine ⟨(p.1, p.2 ++ v), List.mem_map.2 ⟨p, hp, by simp [hpk]⟩, ?_⟩
          exact List.mem_append.2 (Or.inl hu)
        · exact ⟨p, List.mem_map.2 ⟨p, hp, by simp [hpk]⟩, hu⟩
      · rcases List.any_eq_true.1 hany with ⟨p, hp, hpk⟩
        have hpk' : p.1 = k := by simpa using hpk
        refine ⟨(p.1, p.2 ++ v), List.mem_map.2 ⟨p, hp, by simp [hpk']⟩, ?_⟩
        exact List.mem_append.2 (Or.inr hv)
  · rw [if_neg hany]
    unfold valsOf
    rw [List.map_append, List.flatten_append]
    simp [valsOf]

theorem mem_valsOf_keyFold (keyOf : Nat × String × List String → String) :
    ∀ (l : List (Nat × String × List String)) (acc : List (String × List String))
      (u : String),
      u ∈ valsOf (l.foldl (fun md p => rulesAdd md (keyOf p) p.2.2) acc) ↔
        u ∈ valsOf acc ∨ ∃ p ∈ l, u ∈ p.2.2 := by
  intro l
  induction l with
  | nil => intro acc u; simp
  | cons p rest ih =>
    intro acc u
    rw [List.foldl_cons, ih, mem_valsOf_rulesAdd]
    constructor
    · rintro ((h | h) | h)
      · exact Or.inl h
      · exact Or.inr ⟨p, by simp, h⟩
      · rcases h with ⟨q, hq, hu⟩
        exact Or.inr ⟨q, by simp [hq], hu⟩
    · rintro (h | ⟨q, hq, hu⟩)
      · exact Or.inl (Or.inl h)
      · rcases List.mem_cons.1 hq with rfl | hq2
        · exact Or.inl (Or.inr hu)
        · exact Or.inr ⟨q, hq2, hu⟩

theorem exists_enum_iff (d : List (String × List String)) (u : String) :
    (∃ p ∈ d.enum, u ∈ p.2.2) ↔ ∃ q ∈ d, u ∈ q.2 := by
  constructor
  · rintro ⟨p, hp, hu⟩
    refine ⟨p.2, ?_, hu⟩
    have : p.2 ∈ d.enum.map Prod.snd := List.mem_map.2 ⟨p, hp, rfl⟩
    rwa [List.enum_map_snd] at this
  · rintro ⟨q, hq, hu⟩
    have : q ∈ d.enum.map Prod.snd := by rwa [List.enum_map_snd]
    rcases List.mem_map.1 this with ⟨p, hp, hpq⟩
    exact ⟨p, hp, hpq ▸ hu⟩

theorem apply_merge_mem (nr : List (String × List String)) (K : Nat) (mergeResp : String)
    (merged : List (String × List String))
    (hm : apply_merge nr K mergeResp = some merged) (u : String) :
    u ∈ valsOf merged ↔ u ∈ valsOf nr := by
  unfold apply_merge at hm
  by_cases hK : K = 1
  · rw [if_pos hK] at hm
    injection hm with hm
    subst hm
    exact Iff.rfl
  · rw [if_neg hK] at hm
    cases hps : parse_merge mergeResp with
    | none => rw [hps] at hm; cases hm
    | some sugs =>
      rw [hps] at hm
      simp only [Option.some.injEq] at hm
      subst hm
      rw [mem_valsOf_keyFold (fun p =>
        match sugs.find? (fun s => s.1.contains ((p.1 : Int) + 1)) with
        | some s => s.2
        | none => p.2.1) nr.enum []]
      rw [exists_enum_iff]
      have hnil : valsOf ([] : List (String × List String)) = [] := rfl
      rw [hnil]
      simp only [List.not_mem_nil, false_or]
      exact (mem_valsOf_iff nr u).symm

theorem assign_ids_length :
    ∀ (l : List (Nat × String × List String)) (rows : List WorkRow),
      (l.foldl (fun rs p => rs.map (fun r =>
        if p.2.2.contains r.row.uid then
          { r with edge_case_id := some p.1, new_guideline_improvement := some p.2.1 }
        else r)) rows).length = rows.length := by
  intro l
  induction l with
  | nil => intro rows; rfl
  | cons p rest ih =>
    intro rows
    rw [List.foldl_cons, ih, List.length_map]

theorem assign_ids_get? :
    ∀ (l : List (Nat × String × List String)) (rows : List WorkRow) (j : Nat)
      (r : WorkRow), rows.get? j = some r →
      ∃ r', (l.foldl (fun rs p => rs.map (fun r =>
          if p.2.2.contains r.row.uid then
            { r with edge_case_id := some p.1, new_guideline_improvement := some p.2.1 }
          else r)) rows).get? j = some r' ∧
        r'.row = r.row ∧
        (r'.edge_case_id.isSome ↔ (r.edge_case_id.isSome ∨ ∃ p ∈ l, r.row.uid ∈ p.2.2)) := by
  intro l
  induction l with
  | nil =>
    intro rows j r h
    exact ⟨r, h, rfl, by simp⟩
  | cons p rest ih =>
    intro rows j r h
    rw [List.foldl_cons]
    have h1 : (rows.map (fun r =>
        if p.2.2.contains r.row.uid then
          { r with edge_case_id := some p.1, new_guideline_improvement := some p.2.1 }
        else r)).get? j = some (if p.2.2.contains r.row.uid then
          { r with edge_case_id := some p.1, new_guideline_improvement := some p.2.1 }
        else r) := by
      rw [List.get?_map, h]
      rfl
    obtain ⟨r', hr', hrow, hiff⟩ := ih _ j _ h1
    refine ⟨r', hr', ?_, ?_⟩
    · rw [hrow]
      by_cases hc : p.2.2.contains r.row.uid
      · rw [if_pos hc]
      · rw [if_neg hc]
    · rw [hiff]
      by_cases hc : p.2.2.contains r.row.uid
      · have hmem : r.row.uid ∈ p.2.2 := by simpa using hc
        rw [if_pos hc]
        constructor
        · intro _
          exact Or.inr ⟨p, by simp, hmem⟩
        · intro _
          exact Or.inl rfl
      · have hmem : ¬ r.row.uid ∈ p.2.2 := by simpa using hc
        rw [if_neg hc]
        constructor
        · rintro (h2 | ⟨q, hq, hu⟩)
          · exact Or.inl h2
          · exact Or.inr ⟨q, by simp [hq], hu⟩
        · rintro (h2 | ⟨q, hq, hu⟩)
          · exact Or.inl h2
          · rcases List.mem_cons.1 hq with rfl | hq2
            · exact absurd hu hmem
            · exact Or.inr ⟨q, hq2, hu⟩

/-- Claim C3 (amended): after a clustering-path synthesis run, a record's
`edge_case_id` is non-null exactly when the parsed LLM categorization
contributed its uid to some category: records the LLM omitted stay
uncategorized with a null `edge_case_id` (silently dropped), and a uid
contributed to several categories appears in several member lists (its
`edge_case_id` being the last).  The original claim — every qualifying
record in exactly one category with a non-null id — fails on the code. -/
theorem c3_amended_coverage (rows : List InRow) (tid : Option String)
    (store : ModelStore) (oracle : ClusterOracle) (aggResp : Nat → String)
    (mergeResp : String) {res : SynthRes}
    (hres : synthesize_guideline_improvements rows tid store oracle aggResp mergeResp =
      some res)
    (hN : 2 ≤ (rows.filter keepRow).length) :
    ∃ nr, build_new_rules (synthClusterOf rows tid store oracle)
        ((rows.filter keepRow).length / 15 + 1) aggResp = some nr ∧
      ∀ (j : Nat) (r : OutRow), res.improvement_clusters.get? j = some r →
        (r.edge_case_id.isSome ↔ r.uid ∈ valsOf nr) := by
  rw [synthesize_eq_multi rows tid store oracle aggResp mergeResp hN] at hres
  obtain ⟨nr, merged, hb, hm, hre⟩ :=
    synthMulti_components rows tid store oracle aggResp mergeResp res hres
  subst hre
  refine ⟨nr, hb, fun j r hj => ?_⟩
  simp only [List.get?_map] at hj
  cases hw : (assign_ids (synthWorkRows rows tid store oracle) merged).get? j with
  | none => rw [hw] at hj; cases hj
  | some w =>
    rw [hw] at hj
    simp only [Option.map_some', Option.some.injEq] at hj
    subst hj
    have hlen : (assign_ids (synthWorkRows rows tid store oracle) merged).length =
        (synthWorkRows rows tid store oracle).length := by
      unfold assign_ids
      exact assign_ids_length merged.enum _
    have hjlt : j < (synthWorkRows rows tid store oracle).length := by
      rcases List.get?_eq_some.1 hw with ⟨hlt, _⟩
      rw [hlen] at hlt
      exact hlt
    obtain ⟨r0, hr0⟩ : ∃ r0, (synthWorkRows rows tid store oracle).get? j = some r0 := by
      cases hx : (synthWorkRows rows tid store oracle).get? j with
      | none =>
        have := List.get?_eq_none.1 hx
        omega
      | some r0 => exact ⟨r0, rfl⟩
    obtain ⟨r', hr', hrow, hiff⟩ := assign_ids_get? merged.enum _ j r0 hr0
    have hwr : w = r' := by
      unfold assign_ids at hw
      rw [hw] at hr'
      injection hr'
    subst hwr
    have hr0none : r0.edge_case_id = none := by
      unfold synthWorkRows at hr0
      rw [List.get?_map] at hr0
      cases he : ((rows.filter keepRow).enum).get? j with
      | none => rw [he] at hr0; cases hr0
      | some pr =>
        rw [he] at hr0
        simp only [Option.map_some', Option.some.injEq] at hr0
        rw [← hr0]
    simp only [outProj]
    rw [hiff, hr0none, hrow]
    simp only [Option.isSome_none, Bool.false_eq_true, false_or]
    rw [exists_enum_iff, ← mem_valsOf_iff, apply_merge_mem nr _ mergeResp merged hm]

/-- Claim C3 counterexample: two qualifying rules land in one cluster, the
aggregation response assigns only rule 1 to a category, and record "u2" ends
with a null `edge_case_id` and membership in no category — refuting the
claim that every qualifying record is assigned to exactly one category. -/
theorem c3_counterexample :
    keepRow ⟨"u2", "t2", "when b -> y"⟩ = true ∧
    (synthesize_guideline_improvements
      [⟨"u1", "t1", "when a -> x"⟩, ⟨"u2", "t2", "when b -> y"⟩] (some "t")
      ⟨false, false⟩ ⟨fun _ => 0, fun _ => (0, 0), fun _ => 0, fun _ => (0, 0)⟩
      (fun _ => "category_description: \"when c -> z\"\nedge_cases: [1]") "").map
        (fun res => res.improvement_clusters.map (fun r => (r.uid, r.edge_case_id))) =
      some [("u1", some 0), ("u2", none)] :=
  ⟨rfl, rfl⟩

/-- Witness for the amended C3 at the counterexample input: record "u1" is
covered (non-null id), record "u2" is not. -/
theorem c3_witness :
    2 ≤ ([⟨"u1", "t1", "when a -> x"⟩, ⟨"u2", "t2", "when b -> y"⟩].filter keepRow).length ∧
    ∃ nr, build_new_rules
        (synthClusterOf [⟨"u1", "t1", "when a -> x"⟩, ⟨"u2", "t2", "when b -> y"⟩]
          (some "t") ⟨false, false⟩
          ⟨fun _ => 0, fun _ => (0, 0), fun _ => 0, fun _ => (0, 0)⟩)
        (([(⟨"u1", "t1", "when a -> x"⟩ : InRow),
          ⟨"u2", "t2", "when b -> y"⟩].filter keepRow).length / 15 + 1)
        (fun _ => "category_description: \"when c -> z\"\nedge_cases: [1]") = some nr ∧
      ∀ (j : Nat) (r : OutRow),
        (((synthesize_guideline_improvements
          [⟨"u1", "t1", "when a -> x"⟩, ⟨"u2", "t2", "when b -> y"⟩] (some "t")
          ⟨false, false⟩ ⟨fun _ => 0, fun _ => (0, 0), fun _ => 0, fun _ => (0, 0)⟩
          (fun _ => "category_description: \"when c -> z\"\nedge_cases: [1]") "").map
          (fun res : SynthRes => res.improvement_clusters)).getD []).get? j = some r →
        (r.edge_case_id.isSome ↔ r.uid ∈ valsOf nr) := by
  refine ⟨by decide, ?_⟩
  have hs : (synthesize_guideline_improvements
      [⟨"u1", "t1", "when a -> x"⟩, ⟨"u2", "t2", "when b -> y"⟩] (some "t")
      ⟨false, false⟩ ⟨fun _ => 0, fun _ => (0, 0), fun _ => 0, fun _ => (0, 0)⟩
      (fun _ => "category_description: \"when c -> z\"\nedge_cases: [1]") "").isSome =
      true := by rfl
  cases hx : synthesize_guideline_improvements
      [⟨"u1", "t1", "when a -> x"⟩, ⟨"u2", "t2", "when b -> y"⟩] (some "t")
      ⟨false, false⟩ ⟨fun _ => 0, fun _ => (0, 0), fun _ => 0, fun _ => (0, 0)⟩
      (fun _ => "category_description: \"when c -> z\"\nedge_cases: [1]") "" with
  | none => rw [hx] at hs; cases hs
  | some res =>
    obtain ⟨nr, hb, hcov⟩ := c3_amended_coverage _ _ _ _ _ _ hx (by decide)
    refine ⟨nr, hb, fun j r hj => ?_⟩
    simp only [Option.map_some', Option.getD_some] at hj
    exact hcov j r hj

/-! ## Batched-completion lemmas (C1). -/

theorem partitionBatch_foldl {μ ρ : Type} [DecidableEq μ] (model : String)
    (cache : LlmCache μ ρ) :
    ∀ (batch : List μ) (ml0 : List Int) (ms0 : List μ) (hs0 : List ρ),
      batch.foldl (fun acc m =>
        let (ml, misses, hits) := acc
        match alistLookup cache (model, m) with
        | some e => (ml ++ [(hits.length : Int) + 1], misses, hits ++ [e.response])
        | none => (ml ++ [-(misses.length : Int) - 1], misses ++ [m], hits))
        (ml0, ms0, hs0) =
      (ml0 ++ (partAux model cache batch hs0.length ms0.length).1,
        ms0 ++ (partAux model cache batch hs0.length ms0.length).2.1,
        hs0 ++ (partAux model cache batch hs0.length ms0.length).2.2) := by
  intro batch
  induction batch with
  | nil => intro ml0 ms0 hs0; simp [partAux]
  | cons m rest ih =>
    intro ml0 ms0 hs0
    rw [List.foldl_cons]
    cases hl : alistLookup cache (model, m) with
    | some e =>
      simp only [hl]
      rw [ih (ml0 ++ [(hs0.length : Int) + 1]) ms0 (hs0 ++ [e.response])]
      simp [partAux, hl, List.append_assoc]
    | none =>
      simp only [hl]
      rw [ih (ml0 ++ [-(ms0.length : Int) - 1]) (ms0 ++ [m]) hs0]
      simp [partAux, hl, List.append_assoc]

theorem partitionBatch_eq {μ ρ : Type} [DecidableEq μ] (model : String)
    (cache : LlmCache μ ρ) (batch : List μ) :
    partitionBatch model cache batch = partAux model cache batch 0 0 := by
  unfold partitionBatch
  rw [partitionBatch_foldl model cache batch [] [] []]
  simp

theorem partAux_misses_lookup {μ ρ : Type} [DecidableEq μ] (model : String)
    (cache : LlmCache μ ρ) :
    ∀ (batch : List μ) (nH nM : Nat) (m : μ),
      m ∈ (partAux model cache batch nH nM).2.1 →
      alistLookup cache (model, m) = none := by
  intro batch
  induction batch with
  | nil => intro nH nM m h; simp [partAux] at h
  | cons m0 rest ih =>
    intro nH nM m h
    cases hl : alistLookup cache (model, m0) with
    | some e =>
      rw [partAux, hl] at h
      exact ih (nH + 1) nM m h
    | none =>
      rw [partAux, hl] at h
      rcases List.mem_cons.1 h with rfl | hmem
      · exact hl
      · exact ih nH (nM + 1) m hmem

theorem partAux_allhits {μ ρ : Type} [DecidableEq μ] (model : String)
    (cache : LlmCache μ ρ) (achatO : μ → Option (AchatRes ρ)) :
    ∀ (batch : List μ) (nH nM : Nat),
      (partAux model cache batch nH nM).2.1 = [] →
      mapO (answerCur model cache achatO) batch =
        some (partAux model cache batch nH nM).2.2 := by
  intro batch
  induction batch with
  | nil => intro nH nM _; simp [partAux, mapO]
  | cons m rest ih =>
    intro nH nM h
    cases hl : alistLookup cache (model, m) with
    | some e =>
      rw [partAux, hl] at h ⊢
      have hcur : answerCur model cache achatO m = some e.response := by
        unfold answerCur
        rw [hl]
      simp only [mapO, hcur, ih (nH + 1) nM h]
    | none =>
      rw [partAux, hl] at h
      cases h

theorem partAux_mapO {μ ρ : Type} [DecidableEq μ] [Inhabited ρ] (model : String)
    (cache : LlmCache μ ρ) (achatO : μ → Option (AchatRes ρ)) :
    ∀ (batch : List μ) (nH nM : Nat) (fullHits fullAns : List ρ) (fullMisses : List μ),
      fullHits.drop nH = (partAux model cache batch nH nM).2.2 →
      fullMisses.drop nM = (partAux model cache batch nH nM).2.1 →
      fullAns.length = fullMisses.length →
      (∀ j : Nat, fullAns.get? j = ((fullMisses.get? j).bind achatO).map (·.content)) →
      mapO (answerCur model cache achatO) batch =
        some ((partAux model cache batch nH nM).1.map (fun idx =>
          if 0 < idx then fullHits.getD (idx - 1).toNat default
          else fullAns.getD (-idx - 1).toNat default)) := by
  intro batch
  induction batch with
  | nil => intro nH nM fullHits fullAns fullMisses _ _ _ _; simp [partAux, mapO]
  | cons m rest ih =>
    intro nH nM fullHits fullAns fullMisses hH hM hlen hans
    cases hl : alistLookup cache (model, m) with
    | some e =>
      rw [partAux, hl] at hH hM ⊢
      simp only at hH hM ⊢
      have hget : fullHits.get? nH = some e.response := by
        have h0 : (fullHits.drop nH).get? 0 = fullHits.get? (nH + 0) := List.get?_drop _ _ _
        rw [hH] at h0
        simpa using h0.symm
      have hdrop : fullHits.drop (nH + 1) =
          (partAux model cache rest (nH + 1) nM).2.2 := by
        have h1 : fullHits.drop (nH + 1) = (fullHits.drop nH).tail := by
          rw [← List.drop_drop, List.drop_one]
        rw [h1, hH, List.tail_cons]
      have htail := ih (nH + 1) nM fullHits fullAns fullMisses hdrop hM hlen hans
      have hcur : answerCur model cache achatO m = some e.response := by
        unfold answerCur
        rw [hl]
      simp only [mapO, hcur, htail, List.map_cons]
      have hpos : (0 : Int) < (nH : Int) + 1 := by omega
      rw [if_pos hpos]
      have hidx : (((nH : Int) + 1) - 1).toNat = nH := by omega
      rw [hidx, List.getD_eq_get?, hget]
      rfl
    | none =>
      rw [partAux, hl] at hH hM ⊢
      simp only at hH hM ⊢
      have hmget : fullMisses.get? nM = some m := by
        have h0 : (fullMisses.drop nM).get? 0 = fullMisses.get? (nM + 0) := List.get?_drop _ _ _
        rw [hM] at h0
        simpa using h0.symm
      have hdrop : fullMisses.drop (nM + 1) =
          (partAux model cache rest nH (nM + 1)).2.1 := by
        have h1 : fullMisses.drop (nM + 1) = (fullMisses.drop nM).tail := by
          rw [← List.drop_drop, List.drop_one]
        rw [h1, hM, List.tail_cons]
      have hlt : nM < fullAns.length := by
        rcases List.get?_eq_some.1 hmget with ⟨h, _⟩
        omega
      obtain ⟨a, ha⟩ : ∃ a, fullAns.get? nM = some a := by
        cases hx : fullAns.get? nM with
        | none =>
          have := List.get?_eq_none.1 hx
          omega
        | some a => exact ⟨a, rfl⟩
      have hcur : answerCur model cache achatO m = some a := by
        unfold answerCur
        rw [hl]
        have := hans nM
        rw [ha, hmget] at this
        exact this.symm
      have htail := ih nH (nM + 1) fullHits fullAns fullMisses hH hdrop hlen hans
      simp only [mapO, hcur, htail, List.map_cons]
      have hneg : ¬ ((0 : Int) < -(nM : Int) - 1) := by omega
      rw [if_neg hneg]
      have hidx : (-(-(nM : Int) - 1) - 1).toNat = nM := by omega
      rw [hidx, List.getD_eq_get?, ha]
      rfl

theorem answerCur_eq_answerOf {μ ρ : Type} [DecidableEq μ] (model : String)
    (cache₀ : LlmCache μ ρ) (achatO : μ → Option (AchatRes ρ)) (c : LlmCache μ ρ)
    (hInv : CacheInv model cache₀ achatO c) (m : μ) :
    answerCur model c achatO m = answerOf model cache₀ achatO m := by
  unfold answerCur
  cases hl : alistLookup c (model, m) with
  | some e => exact ((hInv m).1 e hl).symm
  | none =>
    unfold answerOf
    rw [(hInv m).2 hl]

theorem cacheInv_insert {μ ρ : Type} [DecidableEq μ] (model : String)
    (cache₀ : LlmCache μ ρ) (achatO : μ → Option (AchatRes ρ)) (c : LlmCache μ ρ)
    (hInv : CacheInv model cache₀ achatO c) (m : μ) (res : AchatRes ρ)
    (hm : answerOf model cache₀ achatO m = some res.content) :
    CacheInv model cache₀ achatO
      (alistInsert c (model, m) ⟨res.content, res.reasoning⟩) := by
  intro m'
  constructor
  · intro e he
    rw [alistLookup_insert] at he
    by_cases hk : ((model, m') : String × μ) = (model, m)
    · rw [if_pos hk] at he
      have hm' : m' = m := congrArg Prod.snd hk
      subst hm'
      injection he with he
      subst he
      exact hm
    · rw [if_neg hk] at he
      exact (hInv m').1 e he
  · intro hne
    rw [alistLookup_insert] at hne
    by_cases hk : ((model, m') : String × μ) = (model, m)
    · rw [if_pos hk] at hne
      cases hne
    · rw [if_neg hk] at hne
      exact (hInv m').2 hne

theorem cacheInv_fold {μ ρ : Type} [DecidableEq μ] (model : String)
    (cache₀ : LlmCache μ ρ) (achatO : μ → Option (AchatRes ρ)) :
    ∀ (pairs : List (μ × AchatRes ρ)) (c : LlmCache μ ρ),
      CacheInv model cache₀ achatO c →
      (∀ p ∈ pairs, answerOf model cache₀ achatO p.1 = some p.2.content) →
      CacheInv model cache₀ achatO
        (pairs.foldl (fun c p =>
          alistInsert c (model, p.1) ⟨p.2.content, p.2.reasoning⟩) c) := by
  intro pairs
  induction pairs with
  | nil => intro c hInv _; exact hInv
  | cons p rest ih =>
    intro c hInv hval
    rw [List.foldl_cons]
    exact ih _ (cacheInv_insert model cache₀ achatO c hInv p.1 p.2 (hval p (by simp)))
      (fun q hq => hval q (by simp [hq]))

theorem processOneBatch_err {μ ρ : Type} [DecidableEq μ] [Inhabited ρ] (model : String)
    (achatO : μ → Option (AchatRes ρ)) (st : RunSt μ ρ) (i : Nat) (batch : List μ) :
    ∃ e, (processOneBatch model achatO st i batch).errorBatches =
      st.errorBatches ++ e := by
  unfold processOneBatch
  rcases hpa : partitionBatch model st.cache batch with ⟨ml, ms, hs⟩
  by_cases hms : ms.isEmpty
  · exact ⟨[], by simp [hms]⟩
  · simp only [hms, Bool.false_eq_true, if_false]
    cases hr : mapO achatO ms with
    | none => exact ⟨[i], rfl⟩
    | some results => exact ⟨[], by simp⟩

theorem processOneBatch_spec {μ ρ : Type} [DecidableEq μ] [Inhabited ρ] (model : String)
    (achatO : μ → Option (AchatRes ρ)) (cache₀ : LlmCache μ ρ) (st : RunSt μ ρ)
    (i : Nat) (batch : List μ) (hInv : CacheInv model cache₀ achatO st.cache)
    (herr : (processOneBatch model achatO st i batch).errorBatches = st.errorBatches) :
    CacheInv model cache₀ achatO (processOneBatch model achatO st i batch).cache ∧
    ∃ ans, mapO (answerOf model cache₀ achatO) batch = some ans ∧
      (processOneBatch model achatO st i batch).allAnswers = st.allAnswers ++ ans := by
  have hcong : mapO (answerCur model st.cache achatO) batch =
      mapO (answerOf model cache₀ achatO) batch :=
    mapO_congr (fun m _ => answerCur_eq_answerOf model cache₀ achatO st.cache hInv m)
  unfold processOneBatch at herr ⊢
  rcases hpa : partitionBatch model st.cache batch with ⟨ml, ms, hs⟩
  rw [hpa] at herr
  have hpa' : partAux model st.cache batch 0 0 = (ml, ms, hs) := by
    rw [← partitionBatch_eq]
    exact hpa
  by_cases hms : ms.isEmpty
  · simp only [hms, if_true] at herr ⊢
    refine ⟨hInv, hs, ?_, rfl⟩
    rw [← hcong]
    have := partAux_allhits model st.cache achatO batch 0 0 (by rw [hpa']; simpa using hms)
    rw [hpa'] at this
    exact this
  · simp only [hms, Bool.false_eq_true, if_false] at herr ⊢
    cases hr : mapO achatO ms with
    | none =>
      rw [hr] at herr
      simp only at herr
      exact absurd ((List.append_right_eq_self).1 herr) (by simp)
    | some results =>
      constructor
      · refine cacheInv_fold model cache₀ achatO (ms.zip results) st.cache hInv ?_
        intro p hp
        have hfa := mapO_zip hr p hp
        have hmem : p.1 ∈ ms := (List.mem_zip hp).1
        have hnone : alistLookup st.cache (model, p.1) = none := by
          refine partAux_misses_lookup model st.cache batch 0 0 p.1 ?_
          rw [hpa']
          exact hmem
        have h0 : alistLookup cache₀ (model, p.1) = none := (hInv p.1).2 hnone
        unfold answerOf
        rw [h0, hfa]
        rfl
      · refine ⟨ml.map (fun idx =>
          if 0 < idx then hs.getD (idx - 1).toNat default
          else (results.map (·.content)).getD (-idx - 1).toNat default), ?_, rfl⟩
        rw [← hcong]
        have hlen : (results.map (·.content)).length = ms.length := by
          rw [List.length_map]
          exact mapO_length hr
        have hans : ∀ j : Nat, (results.map (·.content)).get? j =
            ((ms.get? j).bind achatO).map (·.content) := by
          intro j
          rw [List.get?_map, mapO_get? hr j]
        have := partAux_mapO model st.cache achatO batch 0 0 hs
          (results.map (·.content)) ms (by rw [hpa', List.drop_zero])
          (by rw [hpa', List.drop_zero]) hlen hans
        rw [hpa'] at this
        exact this

theorem runFrom_err {μ ρ : Type} [DecidableEq μ] [Inhabited ρ] (model : String)
    (achatO : μ → Option (AchatRes ρ)) :
    ∀ (l : List (Nat × List μ)) (st : RunSt μ ρ),
      ∃ e, (l.foldl (fun s p => processOneBatch model achatO s p.1 p.2) st).errorBatches =
        st.errorBatches ++ e := by
  intro l
  induction l with
  | nil => intro st; exact ⟨[], by simp⟩
  | cons p rest ih =>
    intro st
    rw [List.foldl_cons]
    obtain ⟨e1, he1⟩ := processOneBatch_err model achatO st p.1 p.2
    obtain ⟨e2, he2⟩ := ih (processOneBatch model achatO st p.1 p.2)
    exact ⟨e1 ++ e2, by rw [he2, he1, List.append_assoc]⟩

theorem runFrom_spec {μ ρ : Type} [DecidableEq μ] [Inhabited ρ] (model : String)
    (achatO : μ → Option (AchatRes ρ)) (cache₀ : LlmCache μ ρ) :
    ∀ (l : List (Nat × List μ)) (st : RunSt μ ρ),
      CacheInv model cache₀ achatO st.cache →
      (l.foldl (fun s p => processOneBatch model achatO s p.1 p.2) st).errorBatches =
        st.errorBatches →
      ∃ tail, mapO (answerOf model cache₀ achatO) ((l.map Prod.snd).flatten) = some tail ∧
        (l.foldl (fun s p => processOneBatch model achatO s p.1 p.2) st).allAnswers =
          st.allAnswers ++ tail := by
  intro l
  induction l with
  | nil =>
    intro st _ _
    exact ⟨[], by simp [mapO], by simp⟩
  | cons p rest ih =>
    intro st hInv herr
    rw [List.foldl_cons] at herr ⊢
    obtain ⟨e1, he1⟩ := processOneBatch_err model achatO st p.1 p.2
    obtain ⟨e2, he2⟩ := runFrom_err model achatO rest (processOneBatch model achatO st p.1 p.2)
    rw [he2, he1, List.append_assoc] at herr
    have he12 : e1 ++ e2 = [] := (List.append_right_eq_self).1 herr
    have he1nil : e1 = [] := by
      cases hx : e1 with
      | nil => rfl
      | cons a as => rw [hx] at he12; cases he12
    have he2nil : e2 = [] := by
      rw [he1nil] at he12
      simpa using he12
    have hstep_err : (processOneBatch model achatO st p.1 p.2).errorBatches =
        st.errorBatches := by
      rw [he1, he1nil, List.append_nil]
    obtain ⟨hInv1, ans1, hans1, hall1⟩ :=
      processOneBatch_spec model achatO cache₀ st p.1 p.2 hInv hstep_err
    have hrest_err : (rest.foldl (fun s p => processOneBatch model achatO s p.1 p.2)
        (processOneBatch model achatO st p.1 p.2)).errorBatches =
        (processOneBatch model achatO st p.1 p.2).errorBatches := by
      rw [he2, he2nil, List.append_nil]
    obtain ⟨tail2, htail2, hall2⟩ := ih (processOneBatch model achatO st p.1 p.2) hInv1
      hrest_err
    refine ⟨ans1 ++ tail2, ?_, ?_⟩
    · rw [List.map_cons, List.flatten_cons]
      exact mapO_append hans1 htail2
    · rw [hall2, hall1, List.append_assoc]

theorem batchifyF_flatten {α : Type} (bs : Nat) (hbs : 0 < bs) :
    ∀ (fuel : Nat) (l : List α), l.length ≤ fuel → (batchifyF fuel l bs).flatten = l := by
  intro fuel
  induction fuel with
  | zero =>
    intro l hl
    cases l with
    | nil => rfl
    | cons a rest => simp at hl
  | succ n ih =>
    intro l hl
    cases l with
    | nil => rfl
    | cons a rest =>
      simp only [batchifyF]
      rw [if_neg (by omega)]
      rw [List.flatten_cons]
      rw [ih ((a :: rest).drop bs) (by
        simp only [List.length_drop, List.length_cons]
        simp only [List.length_cons] at hl
        omega)]
      exact List.take_append_drop bs (a :: rest)

theorem batchify_flatten {α : Type} (l : List α) (bs : Nat) (hbs : 0 < bs) :
    (batchify l bs).flatten = l :=
  batchifyF_flatten bs hbs l.length l (le_refl _)

/-- Claim C1: for every prompt list, starting cache state and positive batch
size, when `create_answers_async` reports zero failed batches the returned
completion list has one entry per prompt in order: entry `i` is the
completion corresponding to prompt `i` (its cached response on a hit, the
provider's answer on a miss), independent of how hits and misses interleave
within batches; arrival order is immaterial because results are reassembled
by positional index. -/
theorem c1_create_answers_async_order {μ ρ : Type} [DecidableEq μ] [Inhabited ρ]
    (model : String) (achatO : μ → Option (AchatRes ρ)) (messages : List μ)
    (cache₀ : LlmCache μ ρ) (batchSize : Nat) (hbs : 0 < batchSize)
    (herr : (create_answers_async model achatO messages cache₀ batchSize).2.1 = []) :
    mapO (answerOf model cache₀ achatO) messages =
      some (create_answers_async model achatO messages cache₀ batchSize).1 ∧
    (create_answers_async model achatO messages cache₀ batchSize).1.length =
      messages.length ∧
    ∀ (i : Nat) (m : μ), messages.get? i = some m →
      (create_answers_async model achatO messages cache₀ batchSize).1.get? i =
        answerOf model cache₀ achatO m := by
  have hInv0 : CacheInv model cache₀ achatO cache₀ := by
    intro m
    constructor
    · intro e he
      unfold answerOf
      rw [he]
    · intro h
      exact h
  have herr' : (((batchify messages batchSize).enum).foldl
      (fun s p => processOneBatch model achatO s p.1 p.2)
      ⟨cache₀, [], [], 0, 0⟩).errorBatches = ([] : List Nat) := herr
  obtain ⟨tail, htail, hall⟩ := runFrom_spec model achatO cache₀
    ((batchify messages batchSize).enum) ⟨cache₀, [], [], 0, 0⟩ hInv0 herr'
  rw [List.enum_map_snd, batchify_flatten messages batchSize hbs] at htail
  have hanswers : (create_answers_async model achatO messages cache₀ batchSize).1 = tail := by
    have : (create_answers_async model achatO messages cache₀ batchSize).1 =
        (((batchify messages batchSize).enum).foldl
          (fun s p => processOneBatch model achatO s p.1 p.2)
          ⟨cache₀, [], [], 0, 0⟩).allAnswers := rfl
    rw [this, hall]
    rfl
  rw [hanswers]
  refine ⟨htail, mapO_length htail, fun i m hm => ?_⟩
  rw [mapO_get? htail i, hm]
  rfl

/-- Witness for C1: three prompts, batch size 2, one cache hit (prompt 1),
no failures; the output pairs each prompt with its expected completion. -/
theorem c1_witness :
    (0 : Nat) < 2 ∧
    (create_answers_async "m" (fun m : Nat => some ⟨m * 10, none, 1, 2⟩) [0, 1, 2]
      [(("m", 1), ⟨100, none⟩)] 2).2.1 = [] ∧
    mapO (answerOf "m" [(("m", 1), ⟨100, none⟩)] (fun m : Nat => some ⟨m * 10, none, 1, 2⟩))
      [0, 1, 2] =
      some (create_answers_async "m" (fun m : Nat => some ⟨m * 10, none, 1, 2⟩) [0, 1, 2]
        [(("m", 1), ⟨100, none⟩)] 2).1 := by
  refine ⟨by decide, by rfl, ?_⟩
  exact (c1_create_answers_async_order "m" (fun m : Nat => some ⟨m * 10, none, 1, 2⟩)
    [0, 1, 2] [(("m", 1), ⟨100, none⟩)] 2 (by decide) (by rfl)).1

theorem getD_range_map {α : Type} (l : List α) (d : α) :
    (List.range l.length).map (fun i => l.getD i d) = l := by
  apply List.ext_get?
  intro i
  rw [List.get?_map]
  by_cases h : i < l.length
  · rw [List.get?_range h, Option.map_some', List.getD_eq_get?]
    cases hx : l.get? i with
    | none =>
      have hlen := List.get?_eq_none.1 hx
      exact absurd hlen (by omega)
    | some a => rfl
  · have h1 : (List.range l.length).get? i = none := by
      rw [List.get?_eq_none, List.length_range]
      omega
    have h2 : l.get? i = none := by
      rw [List.get?_eq_none]
      omega
    rw [h1, h2]
    rfl

/-- Claim C10: `process_annotation_json` replaces its `examples` argument with
the distinct set of texts before any uid assignment or annotation: given that
the set enumeration is duplicate-free and carries exactly the input's members,
the returned records' texts are exactly the enumeration (the set's iteration
order, not the submission order), the record count equals the number of
distinct texts, and it is strictly below the input length whenever the input
holds a duplicate. -/
theorem c10_dedup_before_uids (examples : List String)
    (setEnum : List String → List String) (st : Option MapSt) (fresh : Nat → String)
    (topStore : ModelStore) (oracle : ClusterOracle) (llmA : String → String)
    (recs : List AnnRec) (st' : MapSt) (ts' : ModelStore) (ev : List FitEvent)
    (hnd : (setEnum examples).Nodup)
    (hmem : ∀ a, a ∈ setEnum examples ↔ a ∈ examples)
    (hres : process_annotation_json examples setEnum st fresh topStore oracle llmA =
      some (recs, st', ts', ev)) :
    recs.map (fun r => r.text_to_annotate) = setEnum examples ∧
    recs.length = examples.dedup.length ∧
    (¬examples.Nodup → recs.length < examples.length) := by
  have htexts : recs.map (fun r => r.text_to_annotate) = setEnum examples := by
    simp only [process_annotation_json] at hres
    rcases hru : resolve_uids st (setEnum examples) fresh with ⟨uids, st1⟩
    rw [hru] at hres
    rcases hcl : cluster_texts_with_pca (setEnum examples) topStore oracle 4 with
      ⟨cols, ts1, ev1⟩
    rw [hcl] at hres
    cases hmo : mapO parse_json_output (List.map llmA (setEnum examples)) with
    | none =>
      rw [hmo] at hres
      simp at hres
    | some parsedList =>
      rw [hmo] at hres
      simp only [Option.some.injEq, Prod.mk.injEq] at hres
      obtain ⟨hrecs, -⟩ := hres
      rw [← hrecs, List.map_map]
      exact getD_range_map (setEnum examples) ""
  have hlen2 : recs.length = (setEnum examples).length := by
    have := congrArg List.length htexts
    simpa using this
  have hperm : List.Perm (setEnum examples) examples.dedup :=
    (List.perm_ext_iff_of_nodup hnd (List.nodup_dedup examples)).2
      (fun a => by rw [List.mem_dedup]; exact hmem a)
  refine ⟨htexts, hlen2.trans hperm.length_eq, fun hdup => ?_⟩
  have hle := (List.dedup_sublist examples).length_le
  rcases lt_or_eq_of_le hle with hlt | heq
  · rw [hlen2, hperm.length_eq]
    exact hlt
  · exact absurd ((List.dedup_sublist examples).eq_of_length heq ▸
      List.nodup_dedup examples) hdup

/-- Witness for C10: submitting `["A", "B", "A"]` (one duplicate) with the
set enumeration modelled by `dedup` yields exactly two records, whose texts
are the distinct pair in enumeration order, and two is strictly below the
submitted three. -/
theorem c10_witness :
    ((process_annotation_json ["A", "B", "A"] (fun l => l.dedup) none (fun _ => "u")
        ⟨false, false⟩ ⟨fun i => i, fun _ => (0, 0), fun i => i, fun _ => (0, 0)⟩
        (fun _ => "new_edge_case: false")).map
      (fun q => (q.1.map (fun r => r.text_to_annotate), q.1.length,
        decide (q.1.length < 3)))) = some (["B", "A"], 2, true) := by
  have hs : (process_annotation_json ["A", "B", "A"] (fun l => l.dedup) none (fun _ => "u")
      ⟨false, false⟩ ⟨fun i => i, fun _ => (0, 0), fun i => i, fun _ => (0, 0)⟩
      (fun _ => "new_edge_case: false")).isSome = true := by rfl
  cases hx : process_annotation_json ["A", "B", "A"] (fun l => l.dedup) none (fun _ => "u")
      ⟨false, false⟩ ⟨fun i => i, fun _ => (0, 0), fun i => i, fun _ => (0, 0)⟩
      (fun _ => "new_edge_case: false") with
  | none =>
    rw [hx] at hs
    cases hs
  | some q =>
    obtain ⟨h1, h2, h3⟩ := c10_dedup_before_uids ["A", "B", "A"] (fun l => l.dedup) none
      (fun _ => "u") ⟨false, false⟩ ⟨fun i => i, fun _ => (0, 0), fun i => i, fun _ => (0, 0)⟩
      (fun _ => "new_edge_case: false") q.1 q.2.1 q.2.2.1 q.2.2.2 (by decide)
      (fun a => List.mem_dedup) hx
    simp only [Option.map_some']
    rw [h1, h2]
    decide
